import Mathlib

/-!
# Embeddings: the OpenAI embedder (`embeddings/openai.go`)

A shallow embedding of `batchTexts`, `maybeRemoveNewLines`, `OpenAI.EmbedDocuments`
and `OpenAI.EmbedQuery`, together with the Go string/rune conversions they rely on.

Modelling conventions.

* A Go `string` is its sequence of bytes (`GoString`, natural numbers below 256).
  `len(s)` is the number of bytes.
* `[]rune(s)` decodes UTF-8 the way the Go runtime does (`stringToRunes`): every byte that
  does not start a well-formed encoding becomes the rune U+FFFD and decoding resumes at the
  next byte. `string(rs)` encodes each rune (`runesToString`).
* Go's `int` is modelled by `Int`. Inside `batchTexts` the sum `j+batchSize` is only formed
  with `0 ≤ j < len(runeText)`, and past the first iteration also `batchSize < len(runeText)`;
  a `[]rune` of that length occupies `4*len` bytes of address space, so the sum does not wrap.
* The provider client (`*openai.LLM`) and `combineVectors` are not part of this file of the
  repository: the client is a state-transforming function, `combineVectors` a parameter.
* Every run carries the list of provider requests it made and of the arguments it handed to
  `combineVectors`, in order, so that statements about the calls can be made.
* `maybeRemoveNewLines` writes to the elements of the slice it is given, which shares its
  backing array with the caller's slice: a run of `EmbedDocuments` carries `texts`, the
  contents of the caller's slice afterwards, and `removeNewLinesLoop` is the loop of
  assignments itself (`removeNewLinesInPlace_eq` relates the two).
* The inner loop of `batchTexts` is given twice: as `chunkLoop`, which `batchTexts` runs with
  a bound on the number of loop tests, and as the step function `chunkStep` on `LoopState`,
  iterated by `chunkSteps`; `chunkLoop_eq_chunkSteps` relates the two.
-/

namespace Embeddings

/-- A Go string: its bytes. -/
abbrev GoString := List Nat

/-- The replacement rune U+FFFD that decoding yields for malformed input. A rune (a Unicode
code point) is a natural number. -/
def runeError : Nat := 0xFFFD

/-- Continuation byte test: `locb <= b && b <= hicb`. -/
def isCont (b : Nat) : Bool := 0x80 ≤ b && b ≤ 0xBF

/-- Decode the rune starting at the first byte `b0` of a string whose remaining bytes are
`rest` (the Go runtime's `decoderune`, with the one-byte case of the `range` loop in front).
Returns the rune and the number of bytes consumed. -/
def decoderune (b0 : Nat) (rest : List Nat) : Nat × Nat :=
  if b0 < 0x80 then (b0, 1)
  else if 0xC0 ≤ b0 ∧ b0 < 0xE0 then
    match rest with
    | b1 :: _ =>
      let r := (b0 % 32) * 64 + b1 % 64
      if isCont b1 ∧ 0x7F < r then (r, 2) else (runeError, 1)
    | _ => (runeError, 1)
  else if 0xE0 ≤ b0 ∧ b0 < 0xF0 then
    match rest with
    | b1 :: b2 :: _ =>
      let r := (b0 % 16) * 4096 + (b1 % 64) * 64 + b2 % 64
      if isCont b1 ∧ isCont b2 ∧ 0x7FF < r ∧ ¬ (0xD800 ≤ r ∧ r ≤ 0xDFFF) then (r, 3)
      else (runeError, 1)
    | _ => (runeError, 1)
  else if 0xF0 ≤ b0 ∧ b0 < 0xF8 then
    match rest with
    | b1 :: b2 :: b3 :: _ =>
      let r := (b0 % 8) * 262144 + (b1 % 64) * 4096 + (b2 % 64) * 64 + b3 % 64
      if isCont b1 ∧ isCont b2 ∧ isCont b3 ∧ 0xFFFF < r ∧ r ≤ 0x10FFFF then (r, 4)
      else (runeError, 1)
    | _ => (runeError, 1)
  else (runeError, 1)

/-- Decoding loop of `[]rune(s)`: `skip` is the number of bytes still belonging to the rune
decoded last. -/
def runesFrom : Nat → List Nat → List Nat
  | _, [] => []
  | skip + 1, _ :: rest => runesFrom skip rest
  | 0, b0 :: rest => (decoderune b0 rest).1 :: runesFrom ((decoderune b0 rest).2 - 1) rest

/-- The conversion `[]rune(s)`. -/
def stringToRunes (s : GoString) : List Nat := runesFrom 0 s

/-- The UTF-8 encoding of one rune (the Go runtime's `encoderune`). -/
def encoderune (r : Nat) : List Nat :=
  if r ≤ 0x7F then [r]
  else if r ≤ 0x7FF then [0xC0 + r / 64, 0x80 + r % 64]
  else if 0x10FFFF < r ∨ (0xD800 ≤ r ∧ r ≤ 0xDFFF) then
    [0xE0 + runeError / 4096, 0x80 + (runeError / 64) % 64, 0x80 + runeError % 64]
  else if r ≤ 0xFFFF then [0xE0 + r / 4096, 0x80 + (r / 64) % 64, 0x80 + r % 64]
  else [0xF0 + r / 262144, 0x80 + (r / 4096) % 64, 0x80 + (r / 64) % 64, 0x80 + r % 64]

/-- The conversion `string(rs)` of a rune slice. -/
def runesToString : List Nat → GoString
  | [] => []
  | r :: rs => encoderune r ++ runesToString rs

/-- Number of characters (runes) of a string, `utf8.RuneCountInString`. -/
def runeCount (s : GoString) : Nat := (stringToRunes s).length

/-- The call `strings.ReplaceAll(s, "\n", " ")`: both patterns are one byte long, so every
byte `0x0A` becomes `0x20`. -/
def replaceNewLines (s : GoString) : GoString :=
  s.map (fun b => if b = 0x0A then 0x20 else b)

/-- How a piece of Go code ends: it returns a value, panics at run time, or is still
running when the iteration budget of the model is used up. -/
inductive Outcome (α : Type) where
  | returned (a : α) : Outcome α
  | panicked : Outcome α
  | running : Outcome α
  deriving DecidableEq, Repr

/-- The slice expression `rs[lo:]`; `none` when the index is out of range. -/
def sliceFrom (rs : List Nat) (lo : Int) : Option (List Nat) :=
  if 0 ≤ lo ∧ lo ≤ rs.length then some (rs.drop lo.toNat) else none

/-- The slice expression `rs[lo:hi]`; `none` when the indices are out of range. -/
def slice (rs : List Nat) (lo hi : Int) : Option (List Nat) :=
  if 0 ≤ lo ∧ lo ≤ hi ∧ hi ≤ rs.length then some ((rs.take hi.toNat).drop lo.toNat) else none

/-- `maybeRemoveNewLines`: the returned slice is the argument slice itself, rewritten in
place when `removeNewLines` is set. -/
def maybeRemoveNewLines (texts : List GoString) (removeNewLines : Bool) : List GoString :=
  if !removeNewLines then texts else texts.map replaceNewLines

/-- The inner loop of `batchTexts` for one text: `j` is the loop index, `acc` the chunks
appended to `batchedTexts[i]` so far; the first argument bounds the number of loop tests. -/
def chunkLoop (runeText : List Nat) (batchSize : Int) :
    Nat → Int → List GoString → Outcome (List GoString)
  | 0, _, _ => Outcome.running
  | fuel + 1, j, acc =>
    if j < runeText.length then
      if j + batchSize ≥ runeText.length then
        match sliceFrom runeText j with
        | none => Outcome.panicked
        | some c => Outcome.returned (acc ++ [runesToString c])
      else
        match slice runeText j (j + batchSize) with
        | none => Outcome.panicked
        | some c => chunkLoop runeText batchSize fuel (j + batchSize) (acc ++ [runesToString c])
    else Outcome.returned acc

/-- The body of the outer loop of `batchTexts` for one text: convert to runes and run the
inner loop from `j = 0`. With `batchSize ≥ 1` the loop test is evaluated at most
`len(runeText) + 1` times. -/
def batchText (text : GoString) (batchSize : Int) : Outcome (List GoString) :=
  chunkLoop (stringToRunes text) batchSize ((stringToRunes text).length + 1) 0 []

/-- `batchTexts` splits strings by the length `batchSize`: one group of chunks per text. -/
def batchTexts : List GoString → Int → Outcome (List (List GoString))
  | [], _ => Outcome.returned []
  | text :: texts, batchSize =>
    match batchText text batchSize with
    | Outcome.returned g =>
      match batchTexts texts batchSize with
      | Outcome.returned gs => Outcome.returned (g :: gs)
      | Outcome.panicked => Outcome.panicked
      | Outcome.running => Outcome.running
    | Outcome.panicked => Outcome.panicked
    | Outcome.running => Outcome.running

/-- The provider client `*openai.LLM`: `CreateEmbedding` answers a request in the provider's
current state with vectors or an error, and moves the provider to a new state. -/
structure LLM (σ ε V : Type) where
  CreateEmbedding : σ → List GoString → Except ε (List V) × σ

/-- `OpenAI` is the embedder using the OpenAI api. A `nil` client is `none`. -/
structure OpenAI (σ ε V : Type) where
  client : Option (LLM σ ε V)
  StripNewLines : Bool
  BatchSize : Int

/-- One provider request with the answer it got. -/
structure Call (ε V : Type) where
  request : List GoString
  response : Except ε (List V)

/-- What a call of the embedder leaves behind: its result (a Go pair `(value, error)` is
`Except.ok value` when the error is `nil` and `Except.error err` for `(nil, err)`), the
provider's state, the provider requests made and the arguments given to `combineVectors`. -/
structure Run (σ ε V α : Type) where
  result : Outcome (Except ε α)
  state : σ
  calls : List (Call ε V)
  combines : List (List V × List Int)

/-- The lengths `len(text)` collected in `textLengths`. -/
def textLengths (texts : List GoString) : List Int :=
  texts.map (fun text => (text.length : Int))

/-- The loop of `EmbedDocuments` over the groups of `batchedTexts`; `embeddings` is the
slice built so far, `s` the provider state, `cs` and `ws` the calls made so far. Calling
`CreateEmbedding` on a `nil` client panics. -/
def embedLoop {σ ε V : Type} (client : Option (LLM σ ε V))
    (combineVectors : List V → List Int → Except ε V) :
    List (List GoString) → List V → σ → List (Call ε V) → List (List V × List Int) →
    Run σ ε V (List V)
  | [], embeddings, s, cs, ws => ⟨Outcome.returned (Except.ok embeddings), s, cs, ws⟩
  | texts :: rest, embeddings, s, cs, ws =>
    match client with
    | none => ⟨Outcome.panicked, s, cs, ws⟩
    | some c =>
      match c.CreateEmbedding s texts with
      | (Except.error err, s') =>
        ⟨Outcome.returned (Except.error err), s', cs ++ [⟨texts, Except.error err⟩], ws⟩
      | (Except.ok curTextEmbeddings, s') =>
        match combineVectors curTextEmbeddings (textLengths texts) with
        | Except.error err =>
          ⟨Outcome.returned (Except.error err), s',
            cs ++ [⟨texts, Except.ok curTextEmbeddings⟩],
            ws ++ [(curTextEmbeddings, textLengths texts)]⟩
        | Except.ok combined =>
          embedLoop client combineVectors rest (embeddings ++ [combined]) s'
            (cs ++ [⟨texts, Except.ok curTextEmbeddings⟩])
            (ws ++ [(curTextEmbeddings, textLengths texts)])

/-- What a call of `EmbedDocuments` leaves behind: the run, and `texts`, the contents of the
caller's slice when the call is over (or has panicked, or is still running). -/
structure DocumentsRun (σ ε V : Type) extends Run σ ε V (List V) where
  texts : List GoString

/-- `EmbedDocuments` creates one vector embedding for each of the texts. The provider is in
state `s` when the call starts. The parameter `texts` is the caller's slice (same backing
array); `maybeRemoveNewLines` returns that slice after its assignments, so what it returns is
both what `batchTexts` works on and what the caller's slice holds from then on. -/
def EmbedDocuments {σ ε V : Type} (e : OpenAI σ ε V)
    (combineVectors : List V → List Int → Except ε V) (s : σ) (texts : List GoString) :
    DocumentsRun σ ε V :=
  let texts := maybeRemoveNewLines texts e.StripNewLines
  match batchTexts texts e.BatchSize with
  | Outcome.panicked => ⟨⟨Outcome.panicked, s, [], []⟩, texts⟩
  | Outcome.running => ⟨⟨Outcome.running, s, [], []⟩, texts⟩
  | Outcome.returned batchedTexts =>
    ⟨embedLoop e.client combineVectors batchedTexts [] s [] [], texts⟩

/-- `EmbedQuery` embeds a single text. -/
def EmbedQuery {σ ε V : Type} (e : OpenAI σ ε V) (s : σ) (text : GoString) : Run σ ε V V :=
  let text := if e.StripNewLines then replaceNewLines text else text
  match e.client with
  | none => ⟨Outcome.panicked, s, [], []⟩
  | some c =>
    match c.CreateEmbedding s [text] with
    | (Except.error err, s') =>
      ⟨Outcome.returned (Except.error err), s', [⟨[text], Except.error err⟩], []⟩
    | (Except.ok [], s') => ⟨Outcome.panicked, s', [⟨[text], Except.ok []⟩], []⟩
    | (Except.ok (v :: vs), s') =>
      ⟨Outcome.returned (Except.ok v), s', [⟨[text], Except.ok (v :: vs)⟩], []⟩

/-- A rune that `[]rune(s)` can produce: a Unicode scalar value. -/
def validRune (r : Nat) : Prop := r < 0xD800 ∨ (0xE000 ≤ r ∧ r ≤ 0x10FFFF)

/-- The characters of the `k`-th chunk of size `C`: characters `k*C`, ..., `k*C + C - 1` of the
text, as many of them as exist, converted back to a string. -/
def chunkAt (runeText : List Nat) (C k : Nat) : GoString :=
  runesToString ((runeText.drop (k * C)).take C)

/-- The number of chunks of size `C` that cover `L` characters, `ceil(L / C)`. -/
def chunkCount (L C : Nat) : Nat := (L + C - 1) / C

/-- The run `R` of a loop whose accumulators started empty, seen from a loop whose accumulators
started as `emb`, `cs` and `ws`. -/
def Run.prepend {σ ε V : Type} (emb : List V) (cs : List (Call ε V))
    (ws : List (List V × List Int)) (R : Run σ ε V (List V)) : Run σ ε V (List V) :=
  ⟨match R.result with
    | Outcome.returned (Except.ok vs) => Outcome.returned (Except.ok (emb ++ vs))
    | o => o,
   R.state, cs ++ R.calls, ws ++ R.combines⟩

/-- A string is valid UTF-8 when it is the encoding of a sequence of Unicode scalar values. -/
def validUTF8 (s : GoString) : Prop :=
  ∃ rs : List Nat, (∀ r ∈ rs, validRune r) ∧ s = runesToString rs

/-- A provider for the examples: its state counts the requests made, and it answers every
request with one vector per text (the vector of a text lists the bytes of the text). -/
def echoClient : LLM Nat Nat (List Nat) := ⟨fun n texts => (Except.ok texts, n + 1)⟩

/-- A `combineVectors` for the examples: the weights followed by the vectors' entries. -/
def exampleCombine (vs : List (List Nat)) (ws : List Int) : Except Nat (List Nat) :=
  Except.ok (ws.map Int.toNat ++ vs.flatten)

/-- An embedder for the examples, chunk size 2, over `echoClient`. -/
def exampleEmbedder (strip : Bool) : OpenAI Nat Nat (List Nat) := ⟨some echoClient, strip, 2⟩

/-- A provider for the examples that answers every request successfully with no vector. -/
def emptyAnswerClient : LLM Nat Nat (List Nat) := ⟨fun n _ => (Except.ok [], n + 1)⟩

/-- A provider for the examples whose second request fails with error code 429; every other
request is answered as by `echoClient`. -/
def failSecondClient : LLM Nat Nat (List Nat) :=
  ⟨fun n texts => if n = 1 then (Except.error 429, n + 1) else (Except.ok texts, n + 1)⟩

/-- `defaultBatchSize` is the default length of batches. -/
def defaultBatchSize : Int := 512

/-- `NewOpenAI` creates a new `OpenAI` with `StripNewLines` set to true and batch size set to
512. The argument is the pair `(client, err)` that `openai.New()` returned; the result is the
Go pair `(OpenAI, error)`, and `OpenAI{}` is the embedder with a `nil` client, `false` and 0. -/
def NewOpenAI {σ ε V : Type} (New : Option (LLM σ ε V) × Option ε) : OpenAI σ ε V × Option ε :=
  match New with
  | (_, some err) => (⟨none, false, 0⟩, some err)
  | (client, none) => (⟨client, true, defaultBatchSize⟩, none)

/-- The loop of `maybeRemoveNewLines` on the backing array that the caller's slice and the
parameter `texts` share: the assignments `texts[i] = strings.ReplaceAll(texts[i], "\n", " ")`
for `i`, `i+1`, ... while `i < len(texts)`; the first argument bounds the number of
iterations. -/
def removeNewLinesLoop : Nat → Nat → List GoString → List GoString
  | 0, _, texts => texts
  | fuel + 1, i, texts =>
    match texts[i]? with
    | some text => removeNewLinesLoop fuel (i + 1) (texts.set i (replaceNewLines text))
    | none => texts

/-- The backing array of the slice `texts` after `maybeRemoveNewLines(texts, removeNewLines)`
has run: untouched when the flag is clear, after the loop of assignments otherwise. -/
def removeNewLinesInPlace (removeNewLines : Bool) (texts : List GoString) : List GoString :=
  if !removeNewLines then texts else removeNewLinesLoop texts.length 0 texts

/-- Where the inner loop of `batchTexts` stands: about to evaluate the loop test with index
`j` and the chunks appended so far, left (by the test or by `break`), or stopped by a slice
expression whose indices are out of range. -/
inductive LoopState where
  | looping (j : Int) (chunks : List GoString) : LoopState
  | exited (chunks : List GoString) : LoopState
  | outOfRange : LoopState
  deriving DecidableEq, Repr

/-- One iteration of the inner loop of `batchTexts`: the loop test, the body, and the
post statement `j += batchSize`. A loop that is over stays as it is. -/
def chunkStep (runeText : List Nat) (batchSize : Int) : LoopState → LoopState
  | LoopState.looping j chunks =>
    if j < runeText.length then
      if j + batchSize ≥ runeText.length then
        match sliceFrom runeText j with
        | none => LoopState.outOfRange
        | some c => LoopState.exited (chunks ++ [runesToString c])
      else
        match slice runeText j (j + batchSize) with
        | none => LoopState.outOfRange
        | some c => LoopState.looping (j + batchSize) (chunks ++ [runesToString c])
    else LoopState.exited chunks
  | LoopState.exited chunks => LoopState.exited chunks
  | LoopState.outOfRange => LoopState.outOfRange

/-- The state of the inner loop `n` iterations after state `st`. -/
def chunkSteps (runeText : List Nat) (batchSize : Int) : Nat → LoopState → LoopState
  | 0, st => st
  | n + 1, st => chunkSteps runeText batchSize n (chunkStep runeText batchSize st)

/-- What a loop state means for the function running the loop. -/
def LoopState.outcome : LoopState → Outcome (List GoString)
  | LoopState.looping _ _ => Outcome.running
  | LoopState.exited chunks => Outcome.returned chunks
  | LoopState.outOfRange => Outcome.panicked

/-! ## Go string conversions -/

theorem decoderune_encoderune (r : Nat) (hr : validRune r) (rest : List Nat) :
    ∃ b0 bs, encoderune r = b0 :: bs ∧ decoderune b0 (bs ++ rest) = (r, bs.length + 1) := by
  unfold validRune at hr
  unfold encoderune
  split_ifs with h1 h2 h3 h4
  · refine ⟨_, _, rfl, ?_⟩
    unfold decoderune
    rw [if_pos (show r < 128 by omega)]; rfl
  · refine ⟨_, _, rfl, ?_⟩
    unfold decoderune
    simp only [List.cons_append, List.nil_append, isCont, Bool.and_eq_true, decide_eq_true_eq,
      List.length_cons, List.length_nil]
    split_ifs <;> first | omega | (simp only [Prod.mk.injEq, and_true]; omega)
  · omega
  · refine ⟨_, _, rfl, ?_⟩
    unfold decoderune
    simp only [List.cons_append, List.nil_append, isCont, Bool.and_eq_true, decide_eq_true_eq,
      List.length_cons, List.length_nil]
    split_ifs <;> first | omega | (simp only [Prod.mk.injEq, and_true]; omega)
  · refine ⟨_, _, rfl, ?_⟩
    unfold decoderune
    simp only [List.cons_append, List.nil_append, isCont, Bool.and_eq_true, decide_eq_true_eq,
      List.length_cons, List.length_nil]
    split_ifs <;> first | omega | (simp only [Prod.mk.injEq, and_true]; omega)

theorem runesFrom_skip (bs rest : List Nat) : runesFrom bs.length (bs ++ rest) = runesFrom 0 rest := by
  induction bs with
  | nil => rfl
  | cons b bs ih => simpa [runesFrom] using ih

theorem runesFrom_encoderune (r : Nat) (hr : validRune r) (rest : List Nat) :
    runesFrom 0 (encoderune r ++ rest) = r :: runesFrom 0 rest := by
  obtain ⟨b0, bs, he, hd⟩ := decoderune_encoderune r hr rest
  rw [he, List.cons_append, runesFrom, hd]
  simp only [Nat.add_sub_cancel]
  rw [runesFrom_skip]

theorem decoderune_valid (b0 : Nat) (rest : List Nat) : validRune (decoderune b0 rest).1 := by
  unfold decoderune validRune runeError
  split_ifs with h1 h2 h3 h4
  · simp only; omega
  · split
    · dsimp only
      split_ifs <;> simp only <;> omega
    · simp
  · split
    · dsimp only
      split_ifs with h <;> simp only <;> omega
    · simp
  · split
    · dsimp only
      split_ifs with h <;> simp only <;> omega
    · simp
  · simp

theorem runesFrom_valid (s : List Nat) : ∀ skip, ∀ r ∈ runesFrom skip s, validRune r := by
  induction s with
  | nil => intro skip r h; simp [runesFrom] at h
  | cons b rest ih =>
    intro skip r h
    cases skip with
    | zero =>
      simp only [runesFrom, List.mem_cons] at h
      rcases h with h | h
      · rw [h]; exact decoderune_valid b rest
      · exact ih _ r h
    | succ k => simp only [runesFrom] at h; exact ih _ r h

theorem stringToRunes_runesToString (rs : List Nat) (h : ∀ r ∈ rs, validRune r)
    (rest : List Nat) :
    stringToRunes (runesToString rs ++ rest) = rs ++ stringToRunes rest := by
  induction rs with
  | nil => simp [runesToString]
  | cons r rs ih =>
    have hr := h r (List.mem_cons_self _ _)
    have hrs : ∀ x ∈ rs, validRune x := fun x hx => h x (List.mem_cons_of_mem _ hx)
    unfold stringToRunes at ih ⊢
    simp only [runesToString, List.append_assoc, List.cons_append]
    rw [runesFrom_encoderune r hr, ih hrs]

/-! ## The chunking loop of `batchTexts` -/

theorem lt_chunkCount_iff (L C k : Nat) (hC : 1 ≤ C) : k < chunkCount L C ↔ k * C < L := by
  unfold chunkCount
  rw [Nat.lt_iff_add_one_le, Nat.le_div_iff_mul_le (by omega), Nat.add_mul]
  omega

theorem chunkCount_le (L C : Nat) (hC : 1 ≤ C) : chunkCount L C ≤ L := by
  by_contra h
  have h1 : L < chunkCount L C := by omega
  rw [lt_chunkCount_iff L C L hC] at h1
  have : L * 1 ≤ L * C := Nat.mul_le_mul_left L hC
  omega

theorem chunkLoop_eq (runeText : List Nat) (C : Nat) (hC : 1 ≤ C) :
    ∀ (fuel k : Nat) (acc : List GoString),
      chunkCount runeText.length C - k + 1 ≤ fuel →
      chunkLoop runeText (C : Int) fuel ((k * C : Nat) : Int) acc =
        Outcome.returned
          (acc ++ (List.range' k (chunkCount runeText.length C - k)).map (chunkAt runeText C)) := by
  intro fuel
  induction fuel with
  | zero => intro k acc h; omega
  | succ fuel ih =>
    intro k acc hfuel
    have hlt := lt_chunkCount_iff runeText.length C k hC
    have hlt1 := lt_chunkCount_iff runeText.length C (k + 1) hC
    rw [Nat.add_mul, Nat.one_mul] at hlt1
    generalize hj : k * C = j at *
    unfold chunkLoop
    by_cases h1 : j < runeText.length
    · rw [if_pos (by exact_mod_cast h1)]
      by_cases h2 : j + C ≥ runeText.length
      · rw [if_pos (by exact_mod_cast h2)]
        have hk : chunkCount runeText.length C - k = 1 := by omega
        have hs : sliceFrom runeText (j : Int) = some (runeText.drop j) := by
          unfold sliceFrom
          rw [if_pos (by omega)]
          simp
        rw [hs, hk]
        simp only [List.range', List.map_cons, List.map_nil, chunkAt, hj]
        rw [List.take_of_length_le (by rw [List.length_drop]; omega)]
      · rw [if_neg (by omega)]
        have hs : slice runeText (j : Int) ((j : Int) + (C : Int)) =
            some ((runeText.drop j).take C) := by
          unfold slice
          rw [if_pos (by omega)]
          have : ((j : Int) + (C : Int)).toNat = j + C := by omega
          rw [this, List.drop_take]
          simp
        rw [hs]
        have hcast : ((j : Int) + (C : Int)) = (((k + 1) * C : Nat) : Int) := by
          rw [Nat.add_mul, Nat.one_mul, hj]; rfl
        simp only []
        rw [hcast, ih (k + 1) _ (by omega)]
        have hk : chunkCount runeText.length C - k = (chunkCount runeText.length C - (k + 1)) + 1 := by
          omega
        rw [hk]
        simp only [List.range', List.map_cons, chunkAt, hj, List.append_assoc, List.singleton_append]
    · rw [if_neg (by exact_mod_cast h1)]
      have hk : chunkCount runeText.length C - k = 0 := by omega
      rw [hk]
      simp


theorem batchText_eq (text : GoString) (C : Nat) (hC : 1 ≤ C) :
    batchText text (C : Int) =
      Outcome.returned
        ((List.range (chunkCount (runeCount text) C)).map (chunkAt (stringToRunes text) C)) := by
  have h := chunkLoop_eq (stringToRunes text) C hC ((stringToRunes text).length + 1) 0 []
    (by have := chunkCount_le (stringToRunes text).length C hC; omega)
  simp only [Nat.zero_mul, Nat.cast_zero, Nat.sub_zero, List.nil_append] at h
  unfold batchText runeCount
  rw [h, List.range_eq_range']

theorem batchTexts_eq (texts : List GoString) (C : Nat) (hC : 1 ≤ C) :
    batchTexts texts (C : Int) =
      Outcome.returned (texts.map (fun text =>
        (List.range (chunkCount (runeCount text) C)).map (chunkAt (stringToRunes text) C))) := by
  induction texts with
  | nil => rfl
  | cons text texts ih =>
    unfold batchTexts
    rw [batchText_eq text C hC, ih]
    rfl

theorem stringToRunes_valid (s : GoString) : ∀ r ∈ stringToRunes s, validRune r :=
  runesFrom_valid s 0

theorem stringToRunes_chunkAt (text : GoString) (C k : Nat) :
    stringToRunes (chunkAt (stringToRunes text) C k) =
      ((stringToRunes text).drop (k * C)).take C := by
  have h := stringToRunes_runesToString (((stringToRunes text).drop (k * C)).take C)
    (fun r hr => stringToRunes_valid text r (List.mem_of_mem_drop (List.mem_of_mem_take hr))) []
  simpa [chunkAt, stringToRunes, runesFrom] using h

theorem runeCount_chunkAt (text : GoString) (C k : Nat) :
    runeCount (chunkAt (stringToRunes text) C k) = min C (runeCount text - k * C) := by
  unfold runeCount
  rw [stringToRunes_chunkAt, List.length_take, List.length_drop]

theorem chunkCount_eq_ceil (L C : Nat) (hC : 1 ≤ C) :
    (chunkCount L C : Int) = ⌈(L : ℚ) / (C : ℚ)⌉ := by
  symm
  rw [Int.ceil_eq_iff]
  have hCq : (0 : ℚ) < (C : ℚ) := by exact_mod_cast hC
  have h1 := lt_chunkCount_iff L C (chunkCount L C) hC
  constructor
  · rw [lt_div_iff₀ hCq]
    rcases Nat.eq_zero_or_pos (chunkCount L C) with h0 | hpos
    · rw [h0]
      have : (0 : ℚ) ≤ (L : ℚ) := Nat.cast_nonneg L
      push_cast
      nlinarith
    · have h2 := (lt_chunkCount_iff L C (chunkCount L C - 1) hC).1 (by omega)
      have h3 : ((chunkCount L C - 1 : Nat) : ℚ) * (C : ℚ) < (L : ℚ) := by exact_mod_cast h2
      rw [Nat.cast_sub hpos] at h3
      push_cast at h3 ⊢
      exact h3
  · rw [div_le_iff₀ hCq]
    have h2 : L ≤ chunkCount L C * C := by
      by_contra h
      exact absurd (h1.2 (by omega)) (lt_irrefl _)
    exact_mod_cast h2

/-! ## The request loop of `EmbedDocuments` -/

theorem Run.prepend_prepend {σ ε V : Type} (emb emb' : List V) (cs cs' : List (Call ε V))
    (ws ws' : List (List V × List Int)) (R : Run σ ε V (List V)) :
    Run.prepend emb cs ws (Run.prepend emb' cs' ws' R) =
      Run.prepend (emb ++ emb') (cs ++ cs') (ws ++ ws') R := by
  obtain ⟨res, st, calls, combs⟩ := R
  unfold Run.prepend
  simp only [List.append_assoc, Run.mk.injEq, and_self, and_true]
  rcases res with (vs | e) | _ | _ <;> simp

theorem embedLoop_prepend {σ ε V : Type} (c : LLM σ ε V)
    (cv : List V → List Int → Except ε V) :
    ∀ (gs : List (List GoString)) (emb : List V) (s : σ) (cs : List (Call ε V))
      (ws : List (List V × List Int)),
      embedLoop (some c) cv gs emb s cs ws =
        Run.prepend emb cs ws (embedLoop (some c) cv gs [] s [] []) := by
  intro gs
  induction gs with
  | nil => intro emb s cs ws; simp [embedLoop, Run.prepend]
  | cons g rest ih =>
    intro emb s cs ws
    unfold embedLoop
    simp only []
    rcases hp : c.CreateEmbedding s g with ⟨(err | cur), s'⟩
    · simp [Run.prepend]
    · simp only []
      rcases hc : cv cur (textLengths g) with err | combined
      · simp [Run.prepend]
      · simp only []
        rw [ih (emb ++ [combined]), ih ([] ++ [combined]), Run.prepend_prepend]
        simp

theorem embedLoop_cons {σ ε V : Type} (c : LLM σ ε V)
    (cv : List V → List Int → Except ε V) (g : List GoString) (rest : List (List GoString))
    (s : σ) :
    embedLoop (some c) cv (g :: rest) [] s [] [] =
      match c.CreateEmbedding s g with
      | (Except.error err, s') =>
        ⟨Outcome.returned (Except.error err), s', [⟨g, Except.error err⟩], []⟩
      | (Except.ok cur, s') =>
        match cv cur (textLengths g) with
        | Except.error err =>
          ⟨Outcome.returned (Except.error err), s', [⟨g, Except.ok cur⟩], [(cur, textLengths g)]⟩
        | Except.ok combined =>
          Run.prepend [combined] [⟨g, Except.ok cur⟩] [(cur, textLengths g)]
            (embedLoop (some c) cv rest [] s' [] []) := by
  rw [embedLoop]
  rcases hp : c.CreateEmbedding s g with ⟨(err | cur), s'⟩
  · simp
  · simp only []
    rcases hc : cv cur (textLengths g) with err | combined
    · simp
    · simp only []
      rw [embedLoop_prepend]
      simp


section Loop
variable {σ ε V : Type} (c : LLM σ ε V) (cv : List V → List Int → Except ε V)

theorem Run.prepend_result_ok (emb : List V) (cs : List (Call ε V))
    (ws : List (List V × List Int)) (R : Run σ ε V (List V)) (vs : List V)
    (h : (Run.prepend emb cs ws R).result = Outcome.returned (Except.ok vs)) :
    ∃ vs', R.result = Outcome.returned (Except.ok vs') ∧ vs = emb ++ vs' := by
  obtain ⟨res, st, calls, combs⟩ := R
  rcases res with (e | vs') | _ | _ <;> simp [Run.prepend] at h ⊢
  exact h.symm

theorem Run.prepend_result_error (emb : List V) (cs : List (Call ε V))
    (ws : List (List V × List Int)) (R : Run σ ε V (List V)) (err : ε)
    (h : R.result = Outcome.returned (Except.error err)) :
    (Run.prepend emb cs ws R).result = Outcome.returned (Except.error err) := by
  simp [Run.prepend, h]

/-- A successful run made one request per group and one combination per group, in order. -/
theorem embedLoop_ok (gs : List (List GoString)) :
    ∀ (s : σ) (vs : List V),
      (embedLoop (some c) cv gs [] s [] []).result = Outcome.returned (Except.ok vs) →
      (embedLoop (some c) cv gs [] s [] []).calls.map Call.request = gs ∧
      (embedLoop (some c) cv gs [] s [] []).combines.map Prod.snd = gs.map textLengths ∧
      (embedLoop (some c) cv gs [] s [] []).calls.map Call.response =
        (embedLoop (some c) cv gs [] s [] []).combines.map (fun p => Except.ok p.1) ∧
      (embedLoop (some c) cv gs [] s [] []).combines.map (fun p => cv p.1 p.2) =
        vs.map Except.ok := by
  induction gs with
  | nil =>
    intro s vs h
    simp only [embedLoop, Outcome.returned.injEq, Except.ok.injEq] at h
    subst h
    simp [embedLoop]
  | cons g rest ih =>
    intro s vs
    rw [embedLoop_cons]
    rcases hp : c.CreateEmbedding s g with ⟨(err | cur), s'⟩
    · intro h; simp at h
    · simp only []
      rcases hc : cv cur (textLengths g) with err | combined
      · intro h; simp at h
      · simp only []
        intro h
        obtain ⟨vs', h', rfl⟩ := Run.prepend_result_ok _ _ _ _ _ h
        obtain ⟨h1, h2, h3, h4⟩ := ih s' vs' h'
        simp [Run.prepend, h1, h2, h3, h4, hc]

/-- The run returns its vectors when no request and no combination it made failed. -/
theorem embedLoop_progress (gs : List (List GoString)) :
    ∀ (s : σ),
      (∀ call ∈ (embedLoop (some c) cv gs [] s [] []).calls, ∃ r, call.response = Except.ok r) →
      (∀ p ∈ (embedLoop (some c) cv gs [] s [] []).combines, ∃ v, cv p.1 p.2 = Except.ok v) →
      ∃ vs, (embedLoop (some c) cv gs [] s [] []).result = Outcome.returned (Except.ok vs) := by
  induction gs with
  | nil => intro s _ _; exact ⟨[], rfl⟩
  | cons g rest ih =>
    intro s
    rw [embedLoop_cons]
    rcases hp : c.CreateEmbedding s g with ⟨(err | cur), s'⟩
    · intro h _
      obtain ⟨r, hr⟩ := h ⟨g, Except.error err⟩ (by simp)
      simp at hr
    · simp only []
      rcases hc : cv cur (textLengths g) with err | combined
      · intro _ h
        obtain ⟨v, hv⟩ := h (cur, textLengths g) (by simp)
        simp [hc] at hv
      · simp only []
        intro h1 h2
        obtain ⟨vs, hvs⟩ := ih s'
          (fun call hcall => h1 call (by simp [Run.prepend, hcall]))
          (fun p hp => h2 p (by simp [Run.prepend, hp]))
        exact ⟨combined :: vs, by simp [Run.prepend, hvs]⟩

/-- Every recorded call is an answer the provider gave to that request in some state. -/
theorem embedLoop_calls_real (gs : List (List GoString)) :
    ∀ (s : σ), ∀ call ∈ (embedLoop (some c) cv gs [] s [] []).calls,
      ∃ s', (c.CreateEmbedding s' call.request).1 = call.response := by
  induction gs with
  | nil => intro s call h; simp [embedLoop] at h
  | cons g rest ih =>
    intro s call
    rw [embedLoop_cons]
    rcases hp : c.CreateEmbedding s g with ⟨(err | cur), s'⟩
    · intro h
      simp only [List.mem_singleton] at h
      subst h
      exact ⟨s, by rw [hp]⟩
    · simp only []
      rcases hc : cv cur (textLengths g) with err | combined
      · intro h
        simp only [List.mem_singleton] at h
        subst h
        exact ⟨s, by rw [hp]⟩
      · simp only [Run.prepend, List.singleton_append, List.mem_cons]
        rintro (h | h)
        · subst h
          exact ⟨s, by rw [hp]⟩
        · exact ih s' call h

/-- The requests made are the first groups, in order; the arguments handed to
`combineVectors` are the provider's answers and the byte lengths of the requests, in order. -/
theorem embedLoop_prefix (gs : List (List GoString)) :
    ∀ (s : σ),
      (embedLoop (some c) cv gs [] s [] []).calls.map Call.request <+: gs ∧
      (embedLoop (some c) cv gs [] s [] []).combines.map
          (fun p => (Except.ok p.1, p.2)) <+:
        (embedLoop (some c) cv gs [] s [] []).calls.map
          (fun call => (call.response, textLengths call.request)) := by
  induction gs with
  | nil => intro s; simp [embedLoop]
  | cons g rest ih =>
    intro s
    rw [embedLoop_cons]
    rcases hp : c.CreateEmbedding s g with ⟨(err | cur), s'⟩
    · simp
    · simp only []
      rcases hc : cv cur (textLengths g) with err | combined
      · simp
      · obtain ⟨h1, h2⟩ := ih s'
        simp only [Run.prepend, List.singleton_append, List.map_cons]
        exact ⟨(List.prefix_cons_inj g).2 h1, (List.prefix_cons_inj _).2 h2⟩

/-- A failed request is the last request of the run, and its error is the run's result. -/
theorem embedLoop_error (gs : List (List GoString)) :
    ∀ (s : σ) (pre : List (Call ε V)) (call : Call ε V) (post : List (Call ε V)) (err : ε),
      (embedLoop (some c) cv gs [] s [] []).calls = pre ++ call :: post →
      call.response = Except.error err →
      post = [] ∧
      (embedLoop (some c) cv gs [] s [] []).result = Outcome.returned (Except.error err) ∧
      ∀ call' ∈ pre, ∃ r, call'.response = Except.ok r := by
  induction gs with
  | nil => intro s pre call post err h; simp [embedLoop] at h
  | cons g rest ih =>
    intro s pre call post err
    rw [embedLoop_cons]
    rcases hp : c.CreateEmbedding s g with ⟨(e | cur), s'⟩
    · intro h herr
      simp only [] at h
      rcases pre with _ | ⟨p, pre⟩
      · simp only [List.nil_append, List.cons.injEq] at h
        obtain ⟨h1, h2⟩ := h
        subst h1
        simp only [Except.error.injEq] at herr
        subst herr
        simp [h2.symm]
      · simp at h
    · simp only []
      rcases hc : cv cur (textLengths g) with e | combined
      · intro h herr
        simp only [] at h
        rcases pre with _ | ⟨p, pre⟩
        · simp only [List.nil_append, List.cons.injEq] at h
          obtain ⟨h1, h2⟩ := h
          subst h1
          simp at herr
        · simp at h
      · simp only [Run.prepend, List.singleton_append]
        intro h herr
        rcases pre with _ | ⟨p, pre⟩
        · simp only [List.nil_append, List.cons.injEq] at h
          obtain ⟨h1, h2⟩ := h
          subst h1
          simp at herr
        · simp only [List.cons_append, List.cons.injEq] at h
          obtain ⟨h1, h2⟩ := h
          obtain ⟨i1, i2, i3⟩ := ih s' pre call post err h2 herr
          refine ⟨i1, by simp [i2], ?_⟩
          intro call' hcall'
          simp only [List.mem_cons] at hcall'
          rcases hcall' with h | h
          · subst h; subst h1; exact ⟨cur, rfl⟩
          · exact i3 call' h

end Loop

/-! ## The shape of a call of `EmbedDocuments`, and what its chunks contain -/

theorem maybeRemoveNewLines_eq_map (texts : List GoString) (b : Bool) :
    maybeRemoveNewLines texts b = texts.map (fun t => if b then replaceNewLines t else t) := by
  cases b <;> simp [maybeRemoveNewLines]

/-- The run of `EmbedDocuments` without the caller's slice. -/
theorem EmbedDocuments_toRun {σ ε V : Type} (e : OpenAI σ ε V)
    (cv : List V → List Int → Except ε V) (s : σ) (texts : List GoString) :
    (EmbedDocuments e cv s texts).toRun =
      match batchTexts (maybeRemoveNewLines texts e.StripNewLines) e.BatchSize with
      | Outcome.panicked => ⟨Outcome.panicked, s, [], []⟩
      | Outcome.running => ⟨Outcome.running, s, [], []⟩
      | Outcome.returned batchedTexts => embedLoop e.client cv batchedTexts [] s [] [] := by
  unfold EmbedDocuments
  simp only []
  rcases batchTexts (maybeRemoveNewLines texts e.StripNewLines) e.BatchSize with g | _ | _ <;> rfl

/-- The caller's slice after `EmbedDocuments`, however the call ends. -/
theorem EmbedDocuments_texts {σ ε V : Type} (e : OpenAI σ ε V)
    (cv : List V → List Int → Except ε V) (s : σ) (texts : List GoString) :
    (EmbedDocuments e cv s texts).texts = maybeRemoveNewLines texts e.StripNewLines := by
  unfold EmbedDocuments
  simp only []
  rcases batchTexts (maybeRemoveNewLines texts e.StripNewLines) e.BatchSize with g | _ | _ <;> rfl

theorem EmbedDocuments_eq_embedLoop {σ ε V : Type} (e : OpenAI σ ε V) (c : LLM σ ε V)
    (cv : List V → List Int → Except ε V) (s : σ) (texts : List GoString) (C : Nat)
    (hclient : e.client = some c) (hC : 1 ≤ C) (hB : e.BatchSize = (C : Int)) :
    (EmbedDocuments e cv s texts).toRun =
      embedLoop (some c) cv
        ((maybeRemoveNewLines texts e.StripNewLines).map (fun text =>
          (List.range (chunkCount (runeCount text) C)).map (chunkAt (stringToRunes text) C)))
        [] s [] [] := by
  rw [EmbedDocuments_toRun, hB, batchTexts_eq _ C hC, hclient]

theorem lockstep_index {ε V : Type} (cv : List V → List Int → Except ε V)
    (gs : List (List GoString)) (calls : List (Call ε V)) (combs : List (List V × List Int))
    (vs : List V)
    (h1 : calls.map Call.request = gs)
    (h2 : combs.map Prod.snd = gs.map textLengths)
    (h3 : calls.map Call.response = combs.map (fun p => Except.ok p.1))
    (h4 : combs.map (fun p => cv p.1 p.2) = vs.map Except.ok)
    (i : Nat) (hi : i < gs.length) :
    ∃ answer v, calls[i]? = some ⟨gs[i], Except.ok answer⟩ ∧
      combs[i]? = some (answer, textLengths gs[i]) ∧
      cv answer (textLengths gs[i]) = Except.ok v ∧ vs[i]? = some v := by
  have l1 : calls.length = gs.length := by rw [← h1, List.length_map]
  have l2 : combs.length = gs.length := by
    have := congrArg List.length h2; simpa using this
  have l4 : vs.length = gs.length := by
    have := congrArg List.length h4; simp only [List.length_map] at this; omega
  have e1 : (calls[i]).request = gs[i] := by
    have := List.getElem_of_eq h1 (by simpa [l1] using hi : i < (calls.map Call.request).length)
    simpa using this
  have e2 : (combs[i]).2 = textLengths gs[i] := by
    have := List.getElem_of_eq h2 (by simpa [l2] using hi : i < (combs.map Prod.snd).length)
    simpa using this
  have e3 : (calls[i]).response = Except.ok (combs[i]).1 := by
    have := List.getElem_of_eq h3 (by simpa [l1] using hi : i < (calls.map Call.response).length)
    simpa using this
  have e4 : cv (combs[i]).1 (combs[i]).2 = Except.ok vs[i] := by
    have := List.getElem_of_eq h4
      (by simpa [l2] using hi : i < (combs.map (fun p => cv p.1 p.2)).length)
    simpa using this
  refine ⟨(combs[i]).1, vs[i], ?_, ?_, ?_, ?_⟩
  · rw [List.getElem?_eq_getElem (by omega)]
    congr 1
    rcases hcall : calls[i] with ⟨req, resp⟩
    rw [hcall] at e1 e3
    simp only at e1 e3
    rw [e1, e3]
  · rw [List.getElem?_eq_getElem (by omega)]
    congr 1
    rw [← e2]
  · rw [← e2]; exact e4
  · rw [List.getElem?_eq_getElem (by omega)]

theorem stringToRunes_ascii (s : GoString) (h : ∀ b ∈ s, b < 0x80) : stringToRunes s = s := by
  unfold stringToRunes
  induction s with
  | nil => rfl
  | cons b rest ih =>
    have hb : b < 0x80 := h b (List.mem_cons_self _ _)
    have hd : decoderune b rest = (b, 1) := by
      unfold decoderune
      rw [if_pos hb]
    rw [runesFrom, hd]
    simp only [Nat.sub_self]
    rw [ih (fun x hx => h x (List.mem_cons_of_mem _ hx))]

theorem stringToRunes_ne_nil (s : GoString) (h : s ≠ []) : stringToRunes s ≠ [] := by
  cases s with
  | nil => exact absurd rfl h
  | cons b rest => simp [stringToRunes, runesFrom]

theorem batchTexts_getElem (texts : List GoString) (C : Nat) (hC : 1 ≤ C) :
    ∃ groups, batchTexts texts (C : Int) = Outcome.returned groups ∧
      groups.length = texts.length ∧
      ∀ (i : Nat) (hi : i < texts.length),
        groups[i]? = some ((List.range (chunkCount (runeCount texts[i]) C)).map
          (chunkAt (stringToRunes texts[i]) C)) := by
  refine ⟨_, batchTexts_eq texts C hC, by simp, ?_⟩
  intro i hi
  simp [List.getElem?_eq_getElem, hi]

theorem runeCount_replicate_ascii (n b : Nat) (hb : b < 0x80) :
    runeCount (List.replicate n b) = n := by
  unfold runeCount
  rw [stringToRunes_ascii _ (fun x hx => by rw [List.eq_of_mem_replicate hx]; exact hb)]
  simp

theorem runesToString_stringToRunes (s : GoString) (h : validUTF8 s) :
    runesToString (stringToRunes s) = s := by
  obtain ⟨rs, hrs, rfl⟩ := h
  have := stringToRunes_runesToString rs hrs []
  simp only [List.append_nil] at this
  rw [this]
  simp [stringToRunes, runesFrom]

theorem chunkCount_eq_one (L C : Nat) (h1 : 1 ≤ L) (h2 : L ≤ C) : chunkCount L C = 1 := by
  unfold chunkCount
  apply Nat.div_eq_of_lt_le <;> omega

theorem batchTexts_length (batchSize : Int) :
    ∀ (texts : List GoString) (groups : List (List GoString)),
      batchTexts texts batchSize = Outcome.returned groups → groups.length = texts.length := by
  intro texts
  induction texts with
  | nil => intro groups h; simp only [batchTexts, Outcome.returned.injEq] at h; subst h; rfl
  | cons text texts ih =>
    intro groups h
    unfold batchTexts at h
    rcases h1 : batchText text batchSize with g | _ | _ <;> rw [h1] at h <;> simp only [] at h
    · rcases h2 : batchTexts texts batchSize with gs | _ | _ <;> rw [h2] at h <;>
        simp only [Outcome.returned.injEq, reduceCtorEq] at h
      subst h
      simp [ih gs h2]
    · simp only [reduceCtorEq] at h
    · simp only [reduceCtorEq] at h

theorem maybeRemoveNewLines_length (texts : List GoString) (b : Bool) :
    (maybeRemoveNewLines texts b).length = texts.length := by
  rw [maybeRemoveNewLines_eq_map, List.length_map]

/-- The two ways a call of `EmbedDocuments` can go: either the chunking returned and the
request loop ran with a client, or no request was made at all. -/
theorem EmbedDocuments_cases {σ ε V : Type} (e : OpenAI σ ε V)
    (cv : List V → List Int → Except ε V) (s : σ) (texts : List GoString) :
    (∃ groups c, batchTexts (maybeRemoveNewLines texts e.StripNewLines) e.BatchSize =
        Outcome.returned groups ∧ e.client = some c ∧
        (EmbedDocuments e cv s texts).toRun = embedLoop (some c) cv groups [] s [] []) ∨
    ((EmbedDocuments e cv s texts).calls = [] ∧ (EmbedDocuments e cv s texts).combines = [] ∧
      ∀ vs, (EmbedDocuments e cv s texts).result = Outcome.returned (Except.ok vs) →
        vs = [] ∧ batchTexts (maybeRemoveNewLines texts e.StripNewLines) e.BatchSize =
          Outcome.returned []) := by
  rw [EmbedDocuments_toRun]
  rcases hb : batchTexts (maybeRemoveNewLines texts e.StripNewLines) e.BatchSize with
    groups | _ | _
  · rcases hc : e.client with _ | c
    · right
      cases groups with
      | nil => simp [embedLoop]
      | cons g gs => simp [embedLoop]
    · left
      exact ⟨groups, c, rfl, rfl, rfl⟩
  · right; simp
  · right; simp

theorem prefix_getElem? {α : Type} {l₁ l₂ : List α} (h : l₁ <+: l₂) (k : Nat) (a : α)
    (hk : l₁[k]? = some a) : l₂[k]? = some a := by
  obtain ⟨t, rfl⟩ := h
  have hlt : k < l₁.length := (List.getElem?_eq_some.1 hk).1
  rw [List.getElem?_append_left hlt]
  exact hk

theorem length_eq_runeCount_of_ascii (s : GoString) (h : ∀ b ∈ s, b < 0x80) :
    s.length = runeCount s := by
  unfold runeCount
  rw [stringToRunes_ascii s h]

theorem decoderune_ne_newline (b0 : Nat) (rest : List Nat) (h : b0 ≠ 0x0A) :
    (decoderune b0 rest).1 ≠ 0x0A := by
  unfold decoderune runeError
  split_ifs with h1 h2 h3 h4
  · exact h
  · split
    · dsimp only
      split_ifs <;> simp only <;> omega
    · simp
  · split
    · dsimp only
      split_ifs with h <;> simp only <;> omega
    · simp
  · split
    · dsimp only
      split_ifs with h <;> simp only <;> omega
    · simp
  · simp

theorem runesFrom_no_newline (s : List Nat) (h : 0x0A ∉ s) :
    ∀ skip, 0x0A ∉ runesFrom skip s := by
  induction s with
  | nil => intro skip; simp [runesFrom]
  | cons b rest ih =>
    have hb : b ≠ 0x0A := fun hb => h (hb ▸ List.mem_cons_self _ _)
    have hrest : 0x0A ∉ rest := fun hr => h (List.mem_cons_of_mem _ hr)
    intro skip
    cases skip with
    | zero =>
      simp only [runesFrom, List.mem_cons, not_or]
      exact ⟨fun heq => decoderune_ne_newline b rest hb heq.symm, ih hrest _⟩
    | succ k => simp only [runesFrom]; exact ih hrest k

theorem encoderune_no_newline (r : Nat) (h : r ≠ 0x0A) : 0x0A ∉ encoderune r := by
  unfold encoderune runeError
  split_ifs <;> simp <;> omega

theorem runesToString_no_newline (l : List Nat) (h : 0x0A ∉ l) : 0x0A ∉ runesToString l := by
  induction l with
  | nil => simp [runesToString]
  | cons r rs ih =>
    simp only [runesToString, List.mem_append, not_or]
    exact ⟨encoderune_no_newline r (fun hr => h (hr ▸ List.mem_cons_self _ _)),
      ih (fun hr => h (List.mem_cons_of_mem _ hr))⟩

theorem replaceNewLines_no_newline (s : GoString) : 0x0A ∉ replaceNewLines s := by
  unfold replaceNewLines
  simp only [List.mem_map, not_exists, not_and]
  intro b _
  split_ifs with hb
  · decide
  · exact hb

/-- Whatever the chunk size: every chunk the inner loop appends is the string of some of the
runes of the text. -/
theorem chunkLoop_mem (runeText : List Nat) (batchSize : Int) :
    ∀ (fuel : Nat) (j : Int) (acc out : List GoString),
      chunkLoop runeText batchSize fuel j acc = Outcome.returned out →
      ∀ chunk ∈ out, chunk ∈ acc ∨
        ∃ l : List Nat, (∀ r ∈ l, r ∈ runeText) ∧ chunk = runesToString l := by
  intro fuel
  induction fuel with
  | zero => intro j acc out h; simp [chunkLoop] at h
  | succ fuel ih =>
    intro j acc out h chunk hchunk
    unfold chunkLoop at h
    split_ifs at h with h1 h2
    · unfold sliceFrom at h
      split_ifs at h with h3
      · simp only [Outcome.returned.injEq] at h
        subst h
        simp only [List.mem_append, List.mem_singleton] at hchunk
        rcases hchunk with hc | hc
        · exact Or.inl hc
        · exact Or.inr ⟨_, fun r hr => List.mem_of_mem_drop hr, hc⟩
    · unfold slice at h
      split_ifs at h with h3
      · simp only [] at h
        rcases ih _ _ _ h chunk hchunk with hc | hc
        · simp only [List.mem_append, List.mem_singleton] at hc
          rcases hc with hc | hc
          · exact Or.inl hc
          · exact Or.inr ⟨_, fun r hr => List.mem_of_mem_take (List.mem_of_mem_drop hr), hc⟩
        · exact Or.inr hc
    · simp only [Outcome.returned.injEq] at h
      subst h
      exact Or.inl hchunk

theorem batchTexts_mem (batchSize : Int) :
    ∀ (texts : List GoString) (groups : List (List GoString)),
      batchTexts texts batchSize = Outcome.returned groups →
      ∀ g ∈ groups, ∀ chunk ∈ g, ∃ text ∈ texts, ∃ l : List Nat,
        (∀ r ∈ l, r ∈ stringToRunes text) ∧ chunk = runesToString l := by
  intro texts
  induction texts with
  | nil =>
    intro groups h g hg
    simp only [batchTexts, Outcome.returned.injEq] at h
    subst h
    simp at hg
  | cons text texts ih =>
    intro groups h g hg chunk hchunk
    unfold batchTexts at h
    rcases h1 : batchText text batchSize with g1 | _ | _ <;> rw [h1] at h <;> simp only [] at h
    · rcases h2 : batchTexts texts batchSize with gs | _ | _ <;> rw [h2] at h <;>
        simp only [Outcome.returned.injEq, reduceCtorEq] at h
      subst h
      simp only [List.mem_cons] at hg
      rcases hg with rfl | hg
      · rcases chunkLoop_mem _ _ _ _ _ _ h1 chunk hchunk with hc | ⟨l, hl, hc⟩
        · simp at hc
        · exact ⟨text, List.mem_cons_self _ _, l, hl, hc⟩
      · obtain ⟨t, ht, l, hl, hc⟩ := ih gs h2 g hg chunk hchunk
        exact ⟨t, List.mem_cons_of_mem _ ht, l, hl, hc⟩
    · simp only [reduceCtorEq] at h
    · simp only [reduceCtorEq] at h


theorem replaceNewLines_getElem? (t : GoString) (j : Nat) :
    (replaceNewLines t)[j]? = (t[j]?).map (fun b => if b = 0x0A then 0x20 else b) := by
  unfold replaceNewLines
  rw [List.getElem?_map]

theorem batchTexts_batchText (batchSize : Int) :
    ∀ (texts : List GoString) (groups : List (List GoString)),
      batchTexts texts batchSize = Outcome.returned groups →
      ∀ (i : Nat) (hi : i < texts.length), ∃ group,
        groups[i]? = some group ∧ batchText texts[i] batchSize = Outcome.returned group := by
  intro texts
  induction texts with
  | nil => intro groups _ i hi; simp at hi
  | cons text texts ih =>
    intro groups h i hi
    unfold batchTexts at h
    rcases h1 : batchText text batchSize with g | _ | _ <;> rw [h1] at h <;> simp only [] at h
    · rcases h2 : batchTexts texts batchSize with gs | _ | _ <;> rw [h2] at h <;>
        simp only [Outcome.returned.injEq, reduceCtorEq] at h
      subst h
      cases i with
      | zero => exact ⟨g, by simp, h1⟩
      | succ i =>
        obtain ⟨group, k1, k2⟩ := ih gs h2 i (by simpa using hi)
        exact ⟨group, by simpa using k1, by simpa using k2⟩
    · simp only [reduceCtorEq] at h
    · simp only [reduceCtorEq] at h

theorem removeNewLinesLoop_eq (fuel : Nat) :
    ∀ (i : Nat) (texts : List GoString), texts.length ≤ i + fuel →
      removeNewLinesLoop fuel i texts = texts.take i ++ (texts.drop i).map replaceNewLines := by
  induction fuel with
  | zero =>
    intro i texts h
    simp only [removeNewLinesLoop]
    rw [List.drop_of_length_le (by omega), List.take_of_length_le (by omega)]
    simp
  | succ fuel ih =>
    intro i texts h
    unfold removeNewLinesLoop
    rcases hi : texts[i]? with _ | text
    · simp only []
      have hlen : texts.length ≤ i := by
        rcases Nat.lt_or_ge i texts.length with hlt | hge
        · rw [List.getElem?_eq_getElem hlt] at hi; simp at hi
        · exact hge
      rw [List.drop_of_length_le hlen, List.take_of_length_le hlen]
      simp
    · simp only []
      obtain ⟨hlt, hget⟩ := List.getElem?_eq_some.1 hi
      rw [ih (i + 1) _ (by rw [List.length_set]; omega)]
      obtain ⟨a, b, rfl, rfl⟩ : ∃ a b, texts = a ++ text :: b ∧ a.length = i :=
        ⟨texts.take i, texts.drop (i + 1),
          by rw [← hget, List.getElem_cons_drop, List.take_append_drop],
          by rw [List.length_take]; omega⟩
      simp only [List.set_append_right, Nat.le_refl, Nat.sub_self, List.set_cons_zero,
        List.length_append, List.length_cons, List.drop_append, List.drop_length,
        List.nil_append, List.drop_length_cons, List.take_left', List.map_cons]
      rw [List.take_append 1]
      simp

theorem removeNewLinesInPlace_eq (stripNewLines : Bool) (texts : List GoString) :
    removeNewLinesInPlace stripNewLines texts = maybeRemoveNewLines texts stripNewLines := by
  unfold removeNewLinesInPlace maybeRemoveNewLines
  cases stripNewLines
  · rfl
  · simp only [Bool.not_true, Bool.false_eq_true, if_false]
    rw [removeNewLinesLoop_eq _ 0 texts (by omega)]
    simp

theorem replaceNewLines_eq_self (d : GoString) (h : 0x0A ∉ d) : replaceNewLines d = d := by
  unfold replaceNewLines
  induction d with
  | nil => rfl
  | cons b rest ih =>
    have hb : b ≠ 0x0A := fun hb => h (hb ▸ List.mem_cons_self _ _)
    rw [List.map_cons, if_neg hb, ih (fun hr => h (List.mem_cons_of_mem _ hr))]

theorem runesToString_append (a b : List Nat) :
    runesToString (a ++ b) = runesToString a ++ runesToString b := by
  induction a with
  | nil => rfl
  | cons r rs ih => simp [runesToString, ih]

theorem runesToString_flatten (L : List (List Nat)) :
    runesToString L.flatten = (L.map runesToString).flatten := by
  induction L with
  | nil => rfl
  | cons l L ih => simp [runesToString_append, ih]

theorem flatten_slices (rs : List Nat) (C : Nat) (n : Nat) :
    ((List.range n).map (fun k => (rs.drop (k * C)).take C)).flatten = rs.take (n * C) := by
  induction n with
  | zero => simp
  | succ n ih =>
    rw [List.range_succ, List.map_append, List.flatten_append, ih]
    simp only [List.map_cons, List.map_nil, List.flatten_cons, List.flatten_nil, List.append_nil]
    rw [Nat.add_mul, Nat.one_mul, List.take_add]

theorem flatten_slices_all (rs : List Nat) (C : Nat) (hC : 1 ≤ C) :
    ((List.range (chunkCount rs.length C)).map (fun k => (rs.drop (k * C)).take C)).flatten =
      rs := by
  rw [flatten_slices]
  apply List.take_of_length_le
  have h := lt_chunkCount_iff rs.length C (chunkCount rs.length C) hC
  by_contra hlt
  exact absurd (h.2 (by omega)) (lt_irrefl _)

theorem stringToRunes_runesToString_self (s : GoString) :
    stringToRunes (runesToString (stringToRunes s)) = stringToRunes s := by
  have h := stringToRunes_runesToString (stringToRunes s) (stringToRunes_valid s) []
  simpa [stringToRunes, runesFrom] using h

theorem chunkSteps_exited (runeText : List Nat) (batchSize : Int) (chunks : List GoString) :
    ∀ n, chunkSteps runeText batchSize n (LoopState.exited chunks) = LoopState.exited chunks := by
  intro n
  induction n with
  | zero => rfl
  | succ n ih => simpa [chunkSteps, chunkStep] using ih

theorem chunkSteps_outOfRange (runeText : List Nat) (batchSize : Int) :
    ∀ n, chunkSteps runeText batchSize n LoopState.outOfRange = LoopState.outOfRange := by
  intro n
  induction n with
  | zero => rfl
  | succ n ih => simpa [chunkSteps, chunkStep] using ih

/-- The loop `chunkLoop` with `fuel` loop tests is `fuel` iterations of `chunkStep`. -/
theorem chunkLoop_eq_chunkSteps (runeText : List Nat) (batchSize : Int) :
    ∀ (fuel : Nat) (j : Int) (acc : List GoString),
      chunkLoop runeText batchSize fuel j acc =
        (chunkSteps runeText batchSize fuel (LoopState.looping j acc)).outcome := by
  intro fuel
  induction fuel with
  | zero => intro j acc; rfl
  | succ fuel ih =>
    intro j acc
    unfold chunkLoop
    simp only [chunkSteps, chunkStep]
    split_ifs with h1 h2
    · rcases sliceFrom runeText j with _ | c
      · simp [chunkSteps_outOfRange, LoopState.outcome]
      · simp [chunkSteps_exited, LoopState.outcome]
    · rcases slice runeText j (j + batchSize) with _ | c
      · simp [chunkSteps_outOfRange, LoopState.outcome]
      · simp only []
        exact ih _ _
    · simp [chunkSteps_exited, LoopState.outcome]

theorem chunkSteps_succ (runeText : List Nat) (batchSize : Int) :
    ∀ (n : Nat) (st : LoopState),
      chunkSteps runeText batchSize (n + 1) st =
        chunkStep runeText batchSize (chunkSteps runeText batchSize n st) := by
  intro n
  induction n with
  | zero => intro st; rfl
  | succ n ih => intro st; rw [chunkSteps, ih]; rfl

theorem chunkSteps_in_range (runeText : List Nat) (batchSize : Int) (hB : 1 ≤ batchSize) :
    ∀ n, chunkSteps runeText batchSize n (LoopState.looping 0 []) ≠ LoopState.outOfRange ∧
      ∀ j chunks, chunkSteps runeText batchSize n (LoopState.looping 0 []) =
        LoopState.looping j chunks → 0 ≤ j := by
  intro n
  induction n with
  | zero =>
    refine ⟨by simp [chunkSteps], ?_⟩
    intro j chunks h
    simp only [chunkSteps, LoopState.looping.injEq] at h
    omega
  | succ n ih =>
    rw [chunkSteps_succ]
    rcases hst : chunkSteps runeText batchSize n (LoopState.looping 0 []) with j | c | _
    · have hj : 0 ≤ j := ih.2 j _ hst
      simp only [chunkStep]
      split_ifs with h1 h2
      · have hs : sliceFrom runeText j = some (runeText.drop j.toNat) := by
          unfold sliceFrom
          rw [if_pos ⟨hj, by omega⟩]
        rw [hs]
        simp
      · have hs : slice runeText j (j + batchSize) =
            some ((runeText.take (j + batchSize).toNat).drop j.toNat) := by
          unfold slice
          rw [if_pos ⟨hj, by omega, by omega⟩]
        rw [hs]
        refine ⟨by simp, ?_⟩
        intro j' chunks' h
        simp only [LoopState.looping.injEq] at h
        omega
      · simp
    · simp [chunkStep]
    · exact absurd hst ih.1

theorem outcome_eq_returned (st : LoopState) (chunks : List GoString)
    (h : st.outcome = Outcome.returned chunks) : st = LoopState.exited chunks := by
  cases st with
  | looping j c => simp [LoopState.outcome] at h
  | exited c => simp only [LoopState.outcome, Outcome.returned.injEq] at h; rw [h]
  | outOfRange => simp [LoopState.outcome] at h

theorem chunkSteps_zero_batchSize (runeText : List Nat) (hne : 1 ≤ runeText.length) :
    ∀ n, chunkSteps runeText 0 n (LoopState.looping 0 []) =
      LoopState.looping 0 (List.replicate n []) := by
  intro n
  induction n with
  | zero => rfl
  | succ n ih =>
    rw [chunkSteps_succ, ih]
    simp only [chunkStep]
    have h1 : (0 : Int) < (runeText.length : Int) := by omega
    have h2 : ¬ ((0 : Int) + 0 ≥ (runeText.length : Int)) := by omega
    rw [if_pos h1, if_neg h2]
    have hs : slice runeText 0 (0 + 0) = some [] := by
      unfold slice
      rw [if_pos ⟨le_refl _, by omega, by omega⟩]
      simp
    rw [hs]
    simp only [runesToString, Int.add_zero]
    rw [List.replicate_succ']

theorem chunkAt_ne_nil (text : GoString) (C k : Nat) (hC : 1 ≤ C)
    (hk : k < chunkCount (runeCount text) C) : chunkAt (stringToRunes text) C k ≠ [] := by
  intro h
  have h1 := runeCount_chunkAt text C k
  rw [h] at h1
  have h2 := (lt_chunkCount_iff (runeCount text) C k hC).1 hk
  have h3 : runeCount ([] : GoString) = 0 := rfl
  rw [h3] at h1
  generalize k * C = kc at *
  omega

theorem chunkCount_zero (C : Nat) (hC : 1 ≤ C) : chunkCount 0 C = 0 := by
  unfold chunkCount
  apply Nat.div_eq_of_lt
  omega

theorem normalized_empty (b : Bool) : (if b then replaceNewLines [] else ([] : GoString)) = [] := by
  cases b <;> rfl

/-! ## The claims -/

/-- C1. With a client and `BatchSize ≥ 1`, when no provider request and no combination made by
the call fails, `EmbedDocuments` returns exactly one vector per document, in document order:
the `i`-th request carries the chunks of the `i`-th document (after the optional newline
replacement), and the `i`-th vector is `combineVectors` applied to the provider's answer to
that request and the lengths of those chunks. -/
theorem EmbedDocuments_one_vector_per_document {σ ε V : Type} (e : OpenAI σ ε V)
    (c : LLM σ ε V) (combineVectors : List V → List Int → Except ε V) (s : σ)
    (documents : List GoString) (hclient : e.client = some c) (hB : 1 ≤ e.BatchSize)
    (hcalls : ∀ call ∈ (EmbedDocuments e combineVectors s documents).calls,
      ∃ r, call.response = Except.ok r)
    (hcomb : ∀ p ∈ (EmbedDocuments e combineVectors s documents).combines,
      ∃ v, combineVectors p.1 p.2 = Except.ok v) :
    ∃ vs, (EmbedDocuments e combineVectors s documents).result =
        Outcome.returned (Except.ok vs) ∧
      vs.length = documents.length ∧
      ∀ (i : Nat) (hi : i < documents.length), ∃ chunks answer v s',
        batchText (if e.StripNewLines then replaceNewLines documents[i] else documents[i])
          e.BatchSize = Outcome.returned chunks ∧
        (EmbedDocuments e combineVectors s documents).calls[i]? =
          some ⟨chunks, Except.ok answer⟩ ∧
        (c.CreateEmbedding s' chunks).1 = Except.ok answer ∧
        combineVectors answer (textLengths chunks) = Except.ok v ∧
        vs[i]? = some v := by
  obtain ⟨C, hC⟩ : ∃ C : Nat, e.BatchSize = (C : Int) :=
    ⟨e.BatchSize.toNat, (Int.toNat_of_nonneg (by omega)).symm⟩
  have hC1 : 1 ≤ C := by omega
  rw [EmbedDocuments_eq_embedLoop e c combineVectors s documents C hclient hC1 hC] at hcalls hcomb ⊢
  obtain ⟨vs, hvs⟩ := embedLoop_progress c combineVectors _ s hcalls hcomb
  obtain ⟨h1, h2, h3, h4⟩ := embedLoop_ok c combineVectors _ s vs hvs
  have hlen : vs.length = documents.length := by
    have := congrArg List.length h4
    have := congrArg List.length h2
    simp only [List.length_map, maybeRemoveNewLines_eq_map] at *
    omega
  refine ⟨vs, hvs, hlen, ?_⟩
  intro i hi
  have hi' : i < ((maybeRemoveNewLines documents e.StripNewLines).map (fun text =>
      (List.range (chunkCount (runeCount text) C)).map (chunkAt (stringToRunes text) C))).length := by
    simpa [maybeRemoveNewLines_eq_map] using hi
  obtain ⟨answer, v, k1, _, k3, k4⟩ :=
    lockstep_index combineVectors _ _ _ vs h1 h2 h3 h4 i hi'
  have hg : ((maybeRemoveNewLines documents e.StripNewLines).map (fun text =>
      (List.range (chunkCount (runeCount text) C)).map (chunkAt (stringToRunes text) C)))[i] =
      (List.range (chunkCount (runeCount
          (if e.StripNewLines then replaceNewLines documents[i] else documents[i])) C)).map
        (chunkAt (stringToRunes
          (if e.StripNewLines then replaceNewLines documents[i] else documents[i])) C) := by
    simp [maybeRemoveNewLines_eq_map]
  rw [hg] at k1 k3
  obtain ⟨s', hs'⟩ := embedLoop_calls_real c combineVectors _ s _ (List.getElem?_mem k1)
  exact ⟨_, answer, v, s', by rw [hC, batchText_eq _ C hC1], k1, hs', k3, k4⟩

/-- Witness for C1: two documents, `"a\nb"` and `"c"`, chunk size 2, newline replacement on. -/
theorem EmbedDocuments_one_vector_per_document_witness :
    (1 : Int) ≤ (exampleEmbedder true).BatchSize ∧
    ∃ vs, (EmbedDocuments (exampleEmbedder true) exampleCombine 0 [[97, 10, 98], [99]]).result =
        Outcome.returned (Except.ok vs) ∧ vs.length = 2 := by
  refine ⟨by decide, ?_⟩
  obtain ⟨vs, h1, h2, _⟩ :=
    EmbedDocuments_one_vector_per_document (exampleEmbedder true) echoClient exampleCombine 0
      [[97, 10, 98], [99]] rfl (by decide)
      (fun call hcall => by
        have hc : (EmbedDocuments (exampleEmbedder true) exampleCombine 0
            [[97, 10, 98], [99]]).calls =
            [⟨[[97, 32], [98]], Except.ok [[97, 32], [98]]⟩, ⟨[[99]], Except.ok [[99]]⟩] := by
          rfl
        rw [hc] at hcall
        simp only [List.mem_cons, List.mem_singleton, List.not_mem_nil, or_false] at hcall
        rcases hcall with rfl | rfl <;> exact ⟨_, rfl⟩)
      (fun p _ => ⟨_, rfl⟩)
  exact ⟨vs, h1, h2⟩

/-- C2. For `batchSize ≥ 1`, `batchTexts` returns one group per text; group `i` is the result of
the inner loop on `texts[i]` alone, has `ceil(L / batchSize)` chunks where `L` is the number
of characters of `texts[i]`, and its `k`-th chunk has `min(batchSize, L - k*batchSize)`
characters: at most `batchSize`, and exactly `batchSize` for every chunk but the last. -/
theorem batchTexts_chunk_sizes (texts : List GoString) (batchSize : Int) (hC : 1 ≤ batchSize) :
    ∃ groups, batchTexts texts batchSize = Outcome.returned groups ∧
      groups.length = texts.length ∧
      ∀ (i : Nat) (hi : i < texts.length), ∃ group,
        groups[i]? = some group ∧
        batchText texts[i] batchSize = Outcome.returned group ∧
        (group.length : Int) = ⌈(runeCount texts[i] : ℚ) / (batchSize : ℚ)⌉ ∧
        ∀ (k : Nat) (chunk : GoString), group[k]? = some chunk →
          (runeCount chunk : Int) ≤ batchSize ∧
          (k + 1 < group.length → (runeCount chunk : Int) = batchSize) ∧
          (runeCount chunk : Int) = min batchSize ((runeCount texts[i] : Int) - k * batchSize) := by
  obtain ⟨C, rfl⟩ : ∃ C : Nat, batchSize = (C : Int) :=
    ⟨batchSize.toNat, (Int.toNat_of_nonneg (by omega)).symm⟩
  have hC1 : 1 ≤ C := by omega
  obtain ⟨groups, hg, hlen, hidx⟩ := batchTexts_getElem texts C hC1
  refine ⟨groups, hg, hlen, ?_⟩
  intro i hi
  refine ⟨_, hidx i hi, batchText_eq _ C hC1, ?_, ?_⟩
  · rw [List.length_map, List.length_range, chunkCount_eq_ceil _ _ hC1]
    simp
  · intro k chunk hk
    rw [List.getElem?_eq_some] at hk
    obtain ⟨hk1, hk2⟩ := hk
    simp only [List.length_map, List.length_range] at hk1
    simp only [List.getElem_map, List.getElem_range] at hk2
    subst hk2
    rw [runeCount_chunkAt]
    have h1 := (lt_chunkCount_iff (runeCount texts[i]) C k hC1).1 hk1
    have h2 := lt_chunkCount_iff (runeCount texts[i]) C (k + 1) hC1
    rw [Nat.add_mul, Nat.one_mul] at h2
    simp only [List.length_map, List.length_range]
    rw [← Nat.cast_mul]
    generalize k * C = kc at *
    refine ⟨by omega, fun hlt => ?_, by omega⟩
    have := h2.1 hlt
    omega

/-- Witness for C2: a document of 1000 characters with chunk size 512 gives two chunks, of
512 and 488 characters. -/
theorem batchTexts_chunk_sizes_witness :
    (1 : Int) ≤ 512 ∧
    ∃ c0 c1, batchTexts [List.replicate 1000 97] 512 = Outcome.returned [[c0, c1]] ∧
      runeCount c0 = 512 ∧ runeCount c1 = 488 := by
  refine ⟨by decide, ?_⟩
  obtain ⟨groups, hg, hlen, h⟩ :=
    batchTexts_chunk_sizes [List.replicate 1000 97] 512 (by decide)
  obtain ⟨group, hgi, _, hcount, hk⟩ := h 0 (Nat.zero_lt_succ 0)
  have hL : runeCount (List.replicate 1000 97) = 1000 :=
    runeCount_replicate_ascii 1000 97 (by decide)
  simp only [List.getElem_cons_zero, hL] at hcount hk
  have hceil : ⌈((1000 : Nat) : ℚ) / ((512 : Int) : ℚ)⌉ = 2 := by
    rw [Int.ceil_eq_iff]; norm_num
  rw [hceil] at hcount
  have hlen2 : group.length = 2 := by exact_mod_cast hcount
  match group, hlen2 with
  | [c0, c1], _ =>
    match groups, hlen, hgi with
    | [g], _, hgi =>
      simp only [List.getElem?_cons_zero, Option.some.injEq] at hgi
      subst hgi
      refine ⟨c0, c1, hg, ?_, ?_⟩
      · have := (hk 0 c0 rfl).2.2
        omega
      · have := (hk 1 c1 rfl).2.2
        omega

/-- Counterexample for C3: the empty document yields no chunk at all, and a document that is
not valid UTF-8 (the single byte `0xFF`) yields one chunk that differs from the document
(the encoding of U+FFFD). -/
theorem batchTexts_short_document_counterexample :
    (1 : Int) ≤ 512 ∧
    ((runeCount [] : Int) < 512 ∧
      batchTexts [([] : GoString)] 512 = Outcome.returned [([] : List GoString)] ∧
      batchTexts [([] : GoString)] 512 ≠ Outcome.returned [[([] : GoString)]]) ∧
    ((runeCount [0xFF] : Int) < 512 ∧
      batchTexts [[0xFF]] 512 = Outcome.returned [[[0xEF, 0xBF, 0xBD]]] ∧
      batchTexts [[0xFF]] 512 ≠ Outcome.returned [[[0xFF]]]) := by
  decide

/-- C3 (amended). For `batchSize ≥ 1` and a non-empty document with fewer than `batchSize`
characters, `batchTexts` produces exactly one chunk for that document: the string
`string([]rune(document))`, which is the document itself when the document is valid UTF-8. -/
theorem batchTexts_short_document (texts : List GoString) (batchSize : Int) (i : Nat)
    (hi : i < texts.length) (hC : 1 ≤ batchSize) (hne : texts[i] ≠ [])
    (hshort : (runeCount texts[i] : Int) < batchSize) :
    ∃ groups, batchTexts texts batchSize = Outcome.returned groups ∧
      groups[i]? = some [runesToString (stringToRunes texts[i])] ∧
      (validUTF8 texts[i] → groups[i]? = some [texts[i]]) := by
  obtain ⟨C, rfl⟩ : ∃ C : Nat, batchSize = (C : Int) :=
    ⟨batchSize.toNat, (Int.toNat_of_nonneg (by omega)).symm⟩
  have hC1 : 1 ≤ C := by omega
  obtain ⟨groups, hg, _, hidx⟩ := batchTexts_getElem texts C hC1
  have hL : 1 ≤ runeCount texts[i] := by
    have := stringToRunes_ne_nil _ hne
    unfold runeCount
    exact List.length_pos.2 this
  have hcount : chunkCount (runeCount texts[i]) C = 1 := chunkCount_eq_one _ _ hL (by omega)
  have hchunk : chunkAt (stringToRunes texts[i]) C 0 = runesToString (stringToRunes texts[i]) := by
    unfold chunkAt
    rw [Nat.zero_mul, List.drop_zero, List.take_of_length_le]
    unfold runeCount at hshort
    omega
  have key : groups[i]? = some [runesToString (stringToRunes texts[i])] := by
    rw [hidx i hi, hcount, show List.range 1 = [0] from rfl]
    simp [hchunk]
  refine ⟨groups, hg, key, fun hv => ?_⟩
  rw [key, runesToString_stringToRunes _ hv]

/-- Witness for C3 (amended): the document `"héllo"` with chunk size 512. -/
theorem batchTexts_short_document_witness :
    (1 : Int) ≤ 512 ∧ validUTF8 [0x68, 0xC3, 0xA9, 0x6C, 0x6C, 0x6F] ∧
    ∃ groups, batchTexts [[0x68, 0xC3, 0xA9, 0x6C, 0x6C, 0x6F]] 512 = Outcome.returned groups ∧
      groups[0]? = some [[0x68, 0xC3, 0xA9, 0x6C, 0x6C, 0x6F]] := by
  have hv : validUTF8 [0x68, 0xC3, 0xA9, 0x6C, 0x6C, 0x6F] :=
    ⟨[0x68, 0xE9, 0x6C, 0x6C, 0x6F], by unfold validRune; decide, by decide⟩
  obtain ⟨groups, hg, _, h⟩ :=
    batchTexts_short_document [[0x68, 0xC3, 0xA9, 0x6C, 0x6C, 0x6F]] 512 0 (by decide)
      (by decide) (by decide) (by decide)
  exact ⟨by decide, hv, groups, hg, h hv⟩

/-- Counterexample for C4: two one-chunk documents are submitted in two requests, not in one
request holding both chunks. -/
theorem EmbedDocuments_single_request_counterexample :
    (EmbedDocuments (exampleEmbedder false) exampleCombine 0 [[97], [98]]).result =
      Outcome.returned (Except.ok [[1, 97], [1, 98]]) ∧
    batchTexts [[97], [98]] 2 = Outcome.returned [[[97]], [[98]]] ∧
    (EmbedDocuments (exampleEmbedder false) exampleCombine 0 [[97], [98]]).calls.map
      Call.request = [[[97]], [[98]]] ∧
    (EmbedDocuments (exampleEmbedder false) exampleCombine 0 [[97], [98]]).calls.map
      Call.request ≠ [[[97], [98]]] :=
  ⟨rfl, rfl, rfl, by decide⟩

/-- C4 (amended). A successful `EmbedDocuments` call submits all chunks of all documents in
`len(documents)` requests, one per document; the arguments of the requests, concatenated in
order, are the flattened chunk list in document order. With a single document that is exactly
one request, holding all its chunks. -/
theorem EmbedDocuments_requests_flatten {σ ε V : Type} (e : OpenAI σ ε V)
    (combineVectors : List V → List Int → Except ε V) (s : σ) (documents : List GoString)
    (vs : List V)
    (hok : (EmbedDocuments e combineVectors s documents).result =
      Outcome.returned (Except.ok vs)) :
    ∃ groups, batchTexts (maybeRemoveNewLines documents e.StripNewLines) e.BatchSize =
        Outcome.returned groups ∧
      (EmbedDocuments e combineVectors s documents).calls.length = documents.length ∧
      ((EmbedDocuments e combineVectors s documents).calls.map Call.request).flatten =
        groups.flatten ∧
      (documents.length = 1 → ∃ call,
        (EmbedDocuments e combineVectors s documents).calls = [call] ∧
        call.request = groups.flatten) := by
  rcases EmbedDocuments_cases e combineVectors s documents with ⟨groups, c, hb, _, hE⟩ | ⟨h1, _, h3⟩
  · rw [hE] at hok ⊢
    obtain ⟨k1, _, _, _⟩ := embedLoop_ok c combineVectors groups s vs hok
    have hlen := batchTexts_length _ _ _ hb
    rw [maybeRemoveNewLines_length] at hlen
    have hclen : (embedLoop (some c) combineVectors groups [] s [] []).calls.length =
        documents.length := by
      have := congrArg List.length k1
      rw [List.length_map] at this
      omega
    refine ⟨groups, hb, hclen, by rw [k1], ?_⟩
    intro hone
    rw [hone] at hclen
    match hcalls : (embedLoop (some c) combineVectors groups [] s [] []).calls, hclen with
    | [call], _ =>
      refine ⟨call, rfl, ?_⟩
      rw [hcalls] at k1
      rw [← k1]
      simp
  · obtain ⟨_, hb⟩ := h3 vs hok
    have hlen := batchTexts_length _ _ _ hb
    rw [maybeRemoveNewLines_length] at hlen
    refine ⟨[], hb, by rw [h1]; exact hlen, by rw [h1]; rfl, ?_⟩
    intro hone
    rw [hone] at hlen
    simp at hlen

/-- Witness for C4 (amended): the three-character document `"abc"` with chunk size 2 is
submitted in one request holding its two chunks. -/
theorem EmbedDocuments_requests_flatten_witness :
    ∃ groups, batchTexts [[97, 98, 99]] 2 = Outcome.returned groups ∧
      (EmbedDocuments (exampleEmbedder false) exampleCombine 0 [[97, 98, 99]]).calls.length = 1 ∧
      ((EmbedDocuments (exampleEmbedder false) exampleCombine 0 [[97, 98, 99]]).calls.map
        Call.request).flatten = groups.flatten := by
  obtain ⟨groups, h1, h2, h3, _⟩ :=
    EmbedDocuments_requests_flatten (exampleEmbedder false) exampleCombine 0 [[97, 98, 99]]
      [[2, 1, 97, 98, 99]] rfl
  exact ⟨groups, h1, h2, h3⟩

/-- Counterexample for C5: the document `"é"` is one chunk of one character and two bytes; the
weight handed to `combineVectors` for it is 2. -/
theorem EmbedDocuments_weight_counterexample :
    (EmbedDocuments (exampleEmbedder false) exampleCombine 0 [[0xC3, 0xA9]]).calls.map
      Call.request = [[[0xC3, 0xA9]]] ∧
    (EmbedDocuments (exampleEmbedder false) exampleCombine 0 [[0xC3, 0xA9]]).combines.map
      Prod.snd = [[2]] ∧
    runeCount [0xC3, 0xA9] = 1 ∧
    ((2 : Int) ≠ (runeCount [0xC3, 0xA9] : Int)) :=
  ⟨rfl, rfl, rfl, by decide⟩

/-- C5 (amended). The weights that `EmbedDocuments` passes to `combineVectors` in its `k`-th
combination are those of the chunks of the `k`-th document, which are the texts of the `k`-th
request: the weight of each chunk is the chunk's length in bytes (`len` of the string). For
a chunk of single-byte (ASCII) characters only, that is its length in characters. -/
theorem EmbedDocuments_weights_are_byte_lengths {σ ε V : Type} (e : OpenAI σ ε V)
    (combineVectors : List V → List Int → Except ε V) (s : σ) (documents : List GoString)
    (k : Nat) (p : List V × List Int)
    (hp : (EmbedDocuments e combineVectors s documents).combines[k]? = some p) :
    ∃ groups chunks answer,
      batchTexts (maybeRemoveNewLines documents e.StripNewLines) e.BatchSize =
        Outcome.returned groups ∧
      groups[k]? = some chunks ∧
      (EmbedDocuments e combineVectors s documents).calls[k]? =
        some ⟨chunks, Except.ok answer⟩ ∧
      p.1 = answer ∧
      p.2.length = chunks.length ∧
      ∀ (j : Nat) (chunk : GoString), chunks[j]? = some chunk →
        p.2[j]? = some (chunk.length : Int) ∧
        ((∀ b ∈ chunk, b < 0x80) → p.2[j]? = some (runeCount chunk : Int)) := by
  rcases EmbedDocuments_cases e combineVectors s documents with ⟨groups, c, hb, _, hE⟩ | ⟨_, h2, _⟩
  · rw [hE] at hp ⊢
    obtain ⟨q1, q2⟩ := embedLoop_prefix c combineVectors groups s
    have h1 : ((embedLoop (some c) combineVectors groups [] s [] []).combines.map
        (fun p => ((Except.ok p.1 : Except ε (List V)), p.2)))[k]? = some (Except.ok p.1, p.2) := by
      rw [List.getElem?_map, hp]; rfl
    have h2 := prefix_getElem? q2 k _ h1
    rw [List.getElem?_map] at h2
    rcases hcall : (embedLoop (some c) combineVectors groups [] s [] []).calls[k]? with
      _ | ⟨chunks, resp⟩
    · rw [hcall] at h2; simp at h2
    · rw [hcall] at h2
      simp only [Option.map_some', Option.some.injEq, Prod.mk.injEq] at h2
      obtain ⟨hresp, hw⟩ := h2
      subst hresp
      have h3 : ((embedLoop (some c) combineVectors groups [] s [] []).calls.map
          Call.request)[k]? = some chunks := by
        rw [List.getElem?_map, hcall]; rfl
      refine ⟨groups, chunks, p.1, hb, prefix_getElem? q1 k _ h3, rfl, rfl, ?_, ?_⟩
      · rw [← hw, textLengths, List.length_map]
      · intro j chunk hj
        have hj' : p.2[j]? = some (chunk.length : Int) := by
          rw [← hw, textLengths, List.getElem?_map, hj]; rfl
        refine ⟨hj', fun hascii => ?_⟩
        rw [hj', length_eq_runeCount_of_ascii chunk hascii]
  · rw [h2] at hp
    simp at hp

/-- Witness for C5 (amended): the document `"aé"` with chunk size 2 is one chunk of three
bytes, and the single weight is 3. -/
theorem EmbedDocuments_weights_are_byte_lengths_witness :
    (EmbedDocuments (exampleEmbedder false) exampleCombine 0 [[0x61, 0xC3, 0xA9]]).combines[0]? =
      some ([[0x61, 0xC3, 0xA9]], [3]) ∧
    ∃ groups, batchTexts [[0x61, 0xC3, 0xA9]] 2 = Outcome.returned groups ∧
      groups[0]? = some [[0x61, 0xC3, 0xA9]] := by
  obtain ⟨groups, chunks, answer, h1, h2, h3, _⟩ :=
    EmbedDocuments_weights_are_byte_lengths (exampleEmbedder false) exampleCombine 0
      [[0x61, 0xC3, 0xA9]] 0 ([[0x61, 0xC3, 0xA9]], [3]) rfl
  have hc : (EmbedDocuments (exampleEmbedder false) exampleCombine 0
      [[0x61, 0xC3, 0xA9]]).calls[0]? =
      some ⟨[[0x61, 0xC3, 0xA9]], Except.ok [[0x61, 0xC3, 0xA9]]⟩ := rfl
  rw [hc] at h3
  simp only [Option.some.injEq, Call.mk.injEq] at h3
  rw [← h3.1] at h2
  exact ⟨rfl, groups, h1, h2⟩

/-- C6. With the flag set, `maybeRemoveNewLines` returns as many texts as it got, in the same
order, the `i`-th being `texts[i]` with every newline byte replaced by one space, so that it
contains no newline (`"a\nb"` becomes `"a b"`); with the flag clear it returns the texts
unchanged. Hence no chunk of any request of `EmbedDocuments` contains a newline when
`StripNewLines` is set. -/
theorem maybeRemoveNewLines_replaces_newlines {σ ε V : Type} (texts : List GoString)
    (e : OpenAI σ ε V) (combineVectors : List V → List Int → Except ε V) (s : σ)
    (documents : List GoString) :
    ((maybeRemoveNewLines texts true).length = texts.length ∧
      ∀ (i : Nat) (hi : i < texts.length), ∃ text,
        (maybeRemoveNewLines texts true)[i]? = some text ∧
        text.length = texts[i].length ∧
        (∀ j : Nat, text[j]? = (texts[i][j]?).map (fun b => if b = 0x0A then 0x20 else b)) ∧
        0x0A ∉ text) ∧
    maybeRemoveNewLines [[0x61, 0x0A, 0x62]] true = [[0x61, 0x20, 0x62]] ∧
    maybeRemoveNewLines texts false = texts ∧
    (e.StripNewLines = true →
      ∀ call ∈ (EmbedDocuments e combineVectors s documents).calls,
        ∀ chunk ∈ call.request, 0x0A ∉ chunk) := by
  refine ⟨⟨maybeRemoveNewLines_length texts true, ?_⟩, by decide, rfl, ?_⟩
  · intro i hi
    refine ⟨replaceNewLines texts[i], ?_, ?_, replaceNewLines_getElem? _, replaceNewLines_no_newline _⟩
    · rw [maybeRemoveNewLines_eq_map, List.getElem?_map, List.getElem?_eq_getElem hi]
      rfl
    · simp [replaceNewLines]
  · intro hstrip call hcall chunk hchunk
    rcases EmbedDocuments_cases e combineVectors s documents with
      ⟨groups, c, hb, _, hE⟩ | ⟨h1, _, _⟩
    · rw [hE] at hcall
      obtain ⟨q1, _⟩ := embedLoop_prefix c combineVectors groups s
      have hg : call.request ∈ groups :=
        q1.subset (List.mem_map_of_mem Call.request hcall)
      obtain ⟨text, htext, l, hl, rfl⟩ := batchTexts_mem _ _ _ hb _ hg chunk hchunk
      rw [hstrip, maybeRemoveNewLines_eq_map] at htext
      simp only [if_true, List.mem_map] at htext
      obtain ⟨d, _, rfl⟩ := htext
      apply runesToString_no_newline
      intro h10
      exact runesFrom_no_newline _ (replaceNewLines_no_newline d) 0 (hl _ h10)
    · rw [h1] at hcall
      simp at hcall

/-- Witness for C6: with `StripNewLines` set, the document `"a\nb"` is submitted as `"a b"`
(chunk size 2: the chunks `"a "` and `"b"`), and no submitted chunk contains a newline. -/
theorem maybeRemoveNewLines_replaces_newlines_witness :
    (exampleEmbedder true).StripNewLines = true ∧
    (EmbedDocuments (exampleEmbedder true) exampleCombine 0 [[0x61, 0x0A, 0x62]]).calls.map
      Call.request = [[[0x61, 0x20], [0x62]]] ∧
    ∀ call ∈ (EmbedDocuments (exampleEmbedder true) exampleCombine 0 [[0x61, 0x0A, 0x62]]).calls,
      ∀ chunk ∈ call.request, 0x0A ∉ chunk :=
  ⟨rfl, rfl,
    (maybeRemoveNewLines_replaces_newlines [] (exampleEmbedder true) exampleCombine 0
      [[0x61, 0x0A, 0x62]]).2.2.2 rfl⟩

/-- C7. With a client, `EmbedQuery` makes exactly one provider request, whose argument is the
one-element list holding the text (every newline replaced by a space when `StripNewLines` is
set, the text itself otherwise; the text is never chunked, whatever `BatchSize` is), and makes
no combination; when the provider answers with at least one vector, `EmbedQuery` returns the
first of them unchanged. -/
theorem EmbedQuery_single_request {σ ε V : Type} (e : OpenAI σ ε V) (c : LLM σ ε V) (s : σ)
    (text : GoString) (hclient : e.client = some c) :
    (EmbedQuery e s text).calls =
      [⟨[if e.StripNewLines then replaceNewLines text else text],
        (c.CreateEmbedding s [if e.StripNewLines then replaceNewLines text else text]).1⟩] ∧
    (EmbedQuery e s text).combines = [] ∧
    (EmbedQuery e s text).state =
      (c.CreateEmbedding s [if e.StripNewLines then replaceNewLines text else text]).2 ∧
    ∀ (v : V) (vs : List V),
      (c.CreateEmbedding s [if e.StripNewLines then replaceNewLines text else text]).1 =
        Except.ok (v :: vs) →
      (EmbedQuery e s text).result = Outcome.returned (Except.ok v) := by
  unfold EmbedQuery
  rw [hclient]
  simp only []
  rcases hp : c.CreateEmbedding s [if e.StripNewLines then replaceNewLines text else text] with
    ⟨(err | (_ | ⟨v, vs⟩)), s'⟩ <;> simp

/-- Witness for C7: the query `"a\nb"` with `StripNewLines` set is submitted as the single text
`"a b"`, and the provider's first vector is returned. -/
theorem EmbedQuery_single_request_witness :
    (EmbedQuery (exampleEmbedder true) 0 [0x61, 0x0A, 0x62]).calls =
      [⟨[[0x61, 0x20, 0x62]], Except.ok [[0x61, 0x20, 0x62]]⟩] ∧
    (EmbedQuery (exampleEmbedder true) 0 [0x61, 0x0A, 0x62]).result =
      Outcome.returned (Except.ok [0x61, 0x20, 0x62]) :=
  ⟨(EmbedQuery_single_request (exampleEmbedder true) echoClient 0 [0x61, 0x0A, 0x62] rfl).1,
    (EmbedQuery_single_request (exampleEmbedder true) echoClient 0 [0x61, 0x0A, 0x62] rfl).2.2.2
      [0x61, 0x20, 0x62] [] rfl⟩

/-- C8 (the code at the failing input). When the provider answers a query successfully with an
empty list of vectors, `EmbedQuery` does not return an error: the index expression
`embeddings[0]` is out of range and the call panics, after its one request. -/
theorem EmbedQuery_empty_answer_panics {σ ε V : Type} (e : OpenAI σ ε V) (c : LLM σ ε V)
    (s : σ) (text : GoString) (hclient : e.client = some c)
    (hempty : (c.CreateEmbedding s
      [if e.StripNewLines then replaceNewLines text else text]).1 = Except.ok []) :
    (EmbedQuery e s text).result = Outcome.panicked ∧
    ∀ r : Except ε V, (EmbedQuery e s text).result ≠ Outcome.returned r := by
  unfold EmbedQuery
  rw [hclient]
  simp only []
  rcases hp : c.CreateEmbedding s [if e.StripNewLines then replaceNewLines text else text] with
    ⟨(err | (_ | ⟨v, vs⟩)), s'⟩ <;> rw [hp] at hempty <;> simp at hempty ⊢

/-- Witness for C8: the query `"a"` against a provider that answers with no vector. -/
theorem EmbedQuery_empty_answer_panics_witness :
    (emptyAnswerClient.CreateEmbedding 0 [[0x61]]).1 = Except.ok [] ∧
    (EmbedQuery (⟨some emptyAnswerClient, true, 512⟩ : OpenAI Nat Nat (List Nat)) 0 [0x61]).result =
      Outcome.panicked :=
  ⟨rfl, (EmbedQuery_empty_answer_panics ⟨some emptyAnswerClient, true, 512⟩ emptyAnswerClient 0
    [0x61] rfl rfl).1⟩

/-- C9. Whenever a provider request made by `EmbedDocuments` fails, that request is the last
one the call makes, every request before it succeeded, and the call returns that request's
error and no vectors. -/
theorem EmbedDocuments_fails_on_first_error {σ ε V : Type} (e : OpenAI σ ε V)
    (combineVectors : List V → List Int → Except ε V) (s : σ) (documents : List GoString)
    (pre : List (Call ε V)) (call : Call ε V) (post : List (Call ε V)) (err : ε)
    (hcalls : (EmbedDocuments e combineVectors s documents).calls = pre ++ call :: post)
    (herr : call.response = Except.error err) :
    post = [] ∧
    (EmbedDocuments e combineVectors s documents).result =
      Outcome.returned (Except.error err) ∧
    ∀ call' ∈ pre, ∃ r, call'.response = Except.ok r := by
  rcases EmbedDocuments_cases e combineVectors s documents with
    ⟨groups, c, _, _, hE⟩ | ⟨h1, _, _⟩
  · rw [hE] at hcalls ⊢
    exact embedLoop_error c combineVectors groups s pre call post err hcalls herr
  · rw [h1] at hcalls
    simp at hcalls

/-- Witness for C9: three documents, the provider fails on the second request; the call makes
two requests and returns the error. -/
theorem EmbedDocuments_fails_on_first_error_witness :
    (EmbedDocuments (⟨some failSecondClient, false, 2⟩ : OpenAI Nat Nat (List Nat))
      exampleCombine 0 [[0x61], [0x62], [0x63]]).calls =
      [⟨[[0x61]], Except.ok [[0x61]]⟩] ++ ⟨[[0x62]], Except.error 429⟩ :: [] ∧
    (EmbedDocuments (⟨some failSecondClient, false, 2⟩ : OpenAI Nat Nat (List Nat))
      exampleCombine 0 [[0x61], [0x62], [0x63]]).result =
      Outcome.returned (Except.error 429) :=
  ⟨rfl, (EmbedDocuments_fails_on_first_error ⟨some failSecondClient, false, 2⟩ exampleCombine 0
    [[0x61], [0x62], [0x63]] [⟨[[0x61]], Except.ok [[0x61]]⟩] ⟨[[0x62]], Except.error 429⟩ []
    429 rfl rfl).2.1⟩

/-- C10. For the empty document list `EmbedDocuments` returns the empty list of vectors and no
error, makes no provider request and no combination, and leaves the provider's state as it
was, whatever `StripNewLines`, `BatchSize` and the client are. -/
theorem EmbedDocuments_empty {σ ε V : Type} (e : OpenAI σ ε V)
    (combineVectors : List V → List Int → Except ε V) (s : σ) :
    (EmbedDocuments e combineVectors s []).result = Outcome.returned (Except.ok []) ∧
    (EmbedDocuments e combineVectors s []).calls = [] ∧
    (EmbedDocuments e combineVectors s []).combines = [] ∧
    (EmbedDocuments e combineVectors s []).state = s := by
  have h : maybeRemoveNewLines [] e.StripNewLines = [] := by
    rw [maybeRemoveNewLines_eq_map]; rfl
  unfold EmbedDocuments
  rw [h]
  simp [batchTexts, embedLoop]

/-- C11. When `openai.New()` gives a client and no error, `NewOpenAI` returns the embedder
holding that client with `StripNewLines = true` and `BatchSize = 512`, and no error; when
`openai.New()` gives an error, `NewOpenAI` returns the zero-valued embedder `OpenAI{}` and
exactly that error. -/
theorem NewOpenAI_defaults {σ ε V : Type} (client : Option (LLM σ ε V)) (err : ε) :
    NewOpenAI (client, (none : Option ε)) = (⟨client, true, 512⟩, none) ∧
    NewOpenAI (client, some err) = (⟨none, false, 0⟩, some err) :=
  ⟨rfl, rfl⟩

/-- C13. A successful call of `EmbedDocuments` makes exactly `len(documents)` provider
requests, and the argument of the `i`-th request is the chunk list that the chunking loop
produces for the `i`-th document (after the optional newline replacement). -/
theorem EmbedDocuments_one_request_per_document {σ ε V : Type} (e : OpenAI σ ε V)
    (combineVectors : List V → List Int → Except ε V) (s : σ) (documents : List GoString)
    (vs : List V)
    (hok : (EmbedDocuments e combineVectors s documents).result =
      Outcome.returned (Except.ok vs)) :
    (EmbedDocuments e combineVectors s documents).calls.length = documents.length ∧
    ∀ (i : Nat) (hi : i < documents.length), ∃ chunks,
      batchText (if e.StripNewLines then replaceNewLines documents[i] else documents[i])
        e.BatchSize = Outcome.returned chunks ∧
      ((EmbedDocuments e combineVectors s documents).calls.map Call.request)[i]? =
        some chunks := by
  have hnorm : ∀ (i : Nat) (hi : i < documents.length)
      (hi' : i < (maybeRemoveNewLines documents e.StripNewLines).length),
      (maybeRemoveNewLines documents e.StripNewLines)[i] =
        (if e.StripNewLines then replaceNewLines documents[i] else documents[i]) := by
    intro i hi hi'
    simp [maybeRemoveNewLines_eq_map]
  rcases EmbedDocuments_cases e combineVectors s documents with
    ⟨groups, c, hb, _, hE⟩ | ⟨h1, _, h3⟩
  · rw [hE] at hok ⊢
    obtain ⟨k1, _, _, _⟩ := embedLoop_ok c combineVectors groups s vs hok
    have hlen := batchTexts_length _ _ _ hb
    rw [maybeRemoveNewLines_length] at hlen
    refine ⟨?_, ?_⟩
    · have := congrArg List.length k1
      rw [List.length_map] at this
      omega
    · intro i hi
      have hi' : i < (maybeRemoveNewLines documents e.StripNewLines).length := by
        rw [maybeRemoveNewLines_length]; exact hi
      obtain ⟨group, g1, g2⟩ := batchTexts_batchText _ _ _ hb i hi'
      rw [hnorm i hi hi'] at g2
      exact ⟨group, g2, by rw [k1]; exact g1⟩
  · obtain ⟨_, hb⟩ := h3 vs hok
    have hlen := batchTexts_length _ _ _ hb
    rw [maybeRemoveNewLines_length] at hlen
    refine ⟨by rw [h1]; exact hlen, ?_⟩
    intro i hi
    simp only [List.length_nil] at hlen
    omega

/-- Witness for C13: the documents `"abc"` and `""` with chunk size 2 give two requests, the
first with the chunks `"ab"`, `"c"`, the second with no text. -/
theorem EmbedDocuments_one_request_per_document_witness :
    (EmbedDocuments (exampleEmbedder false) exampleCombine 0 [[97, 98, 99], []]).result =
      Outcome.returned (Except.ok [[2, 1, 97, 98, 99], []]) ∧
    (EmbedDocuments (exampleEmbedder false) exampleCombine 0 [[97, 98, 99], []]).calls.length =
      2 ∧
    (EmbedDocuments (exampleEmbedder false) exampleCombine 0 [[97, 98, 99], []]).calls.map
      Call.request = [[[97, 98], [99]], []] :=
  ⟨rfl,
    (EmbedDocuments_one_request_per_document (exampleEmbedder false) exampleCombine 0
      [[97, 98, 99], []] [[2, 1, 97, 98, 99], []] rfl).1,
    rfl⟩

/-- C14. With a client, when the provider request of `EmbedQuery` fails, `EmbedQuery` returns
no vector and exactly the provider's error, after that one request. -/
theorem EmbedQuery_propagates_error {σ ε V : Type} (e : OpenAI σ ε V) (c : LLM σ ε V) (s : σ)
    (text : GoString) (err : ε) (hclient : e.client = some c)
    (herr : (c.CreateEmbedding s
      [if e.StripNewLines then replaceNewLines text else text]).1 = Except.error err) :
    (EmbedQuery e s text).result = Outcome.returned (Except.error err) ∧
    (EmbedQuery e s text).calls =
      [⟨[if e.StripNewLines then replaceNewLines text else text], Except.error err⟩] := by
  unfold EmbedQuery
  rw [hclient]
  simp only []
  rcases hp : c.CreateEmbedding s [if e.StripNewLines then replaceNewLines text else text] with
    ⟨(err' | (_ | ⟨v, vs⟩)), s'⟩ <;> rw [hp] at herr <;> simp at herr ⊢
  exact herr

/-- Witness for C14: a query to a provider that is about to fail with error code 429. -/
theorem EmbedQuery_propagates_error_witness :
    (failSecondClient.CreateEmbedding 1 [[0x61]]).1 = Except.error 429 ∧
    (EmbedQuery (⟨some failSecondClient, false, 512⟩ : OpenAI Nat Nat (List Nat)) 1 [0x61]).result =
      Outcome.returned (Except.error 429) :=
  ⟨rfl, (EmbedQuery_propagates_error ⟨some failSecondClient, false, 512⟩ failSecondClient 1
    [0x61] 429 rfl rfl).1⟩

/-- Counterexample for C12: with `StripNewLines` set, a call of `EmbedDocuments` on the
caller's list `["a\nb"]` leaves `"a b"` in the caller's list. -/
theorem EmbedDocuments_rewrites_caller_texts_counterexample :
    (exampleEmbedder true).StripNewLines = true ∧
    (EmbedDocuments (exampleEmbedder true) exampleCombine 0 [[0x61, 0x0A, 0x62]]).texts =
      [[0x61, 0x20, 0x62]] ∧
    (EmbedDocuments (exampleEmbedder true) exampleCombine 0 [[0x61, 0x0A, 0x62]]).texts ≠
      [[0x61, 0x0A, 0x62]] :=
  ⟨rfl, rfl, by decide⟩

/-- C12 (amended). With `StripNewLines` set, `EmbedDocuments` has a side effect besides the
provider calls: it rewrites the caller's document list in place. However the call ends, the
caller's list afterwards has the same length, its `i`-th string is the `i`-th document with
every newline replaced by a space when `StripNewLines` is set and the `i`-th document itself
otherwise, it is what the loop of assignments of `maybeRemoveNewLines` leaves in the backing
array, and it is the list that is chunked and submitted. The caller's list holds the same
strings as before the call when `StripNewLines` is off, and when no document contains a
newline. -/
theorem EmbedDocuments_caller_texts {σ ε V : Type} (e : OpenAI σ ε V)
    (combineVectors : List V → List Int → Except ε V) (s : σ) (documents : List GoString) :
    (EmbedDocuments e combineVectors s documents).texts.length = documents.length ∧
    (∀ (i : Nat) (hi : i < documents.length),
      (EmbedDocuments e combineVectors s documents).texts[i]? =
        some (if e.StripNewLines then replaceNewLines documents[i] else documents[i])) ∧
    (EmbedDocuments e combineVectors s documents).texts =
      removeNewLinesInPlace e.StripNewLines documents ∧
    (∀ groups,
      batchTexts (EmbedDocuments e combineVectors s documents).texts e.BatchSize =
        Outcome.returned groups →
      (EmbedDocuments e combineVectors s documents).toRun =
        embedLoop e.client combineVectors groups [] s [] []) ∧
    (e.StripNewLines = false →
      (EmbedDocuments e combineVectors s documents).texts = documents) ∧
    ((∀ d ∈ documents, 0x0A ∉ d) →
      (EmbedDocuments e combineVectors s documents).texts = documents) := by
  rw [EmbedDocuments_texts]
  refine ⟨maybeRemoveNewLines_length _ _, ?_, (removeNewLinesInPlace_eq _ _).symm, ?_, ?_, ?_⟩
  · intro i hi
    rw [maybeRemoveNewLines_eq_map, List.getElem?_map, List.getElem?_eq_getElem hi]
    rfl
  · intro groups hg
    rw [EmbedDocuments_toRun, hg]
  · intro h
    rw [h]
    rfl
  · intro h
    rw [maybeRemoveNewLines_eq_map]
    conv_rhs => rw [← List.map_id documents]
    apply List.map_congr_left
    intro d hd
    split_ifs
    · exact replaceNewLines_eq_self d (h d hd)
    · rfl

/-- Witness for C12 (amended): with `StripNewLines` set, the caller's list `["a b", "c"]`,
which holds no newline, is the same after the call. -/
theorem EmbedDocuments_caller_texts_witness :
    (∀ d ∈ [[0x61, 0x20, 0x62], [0x63]], 0x0A ∉ d) ∧
    (EmbedDocuments (exampleEmbedder true) exampleCombine 0 [[0x61, 0x20, 0x62], [0x63]]).texts =
      [[0x61, 0x20, 0x62], [0x63]] :=
  ⟨by decide,
    (EmbedDocuments_caller_texts (exampleEmbedder true) exampleCombine 0
      [[0x61, 0x20, 0x62], [0x63]]).2.2.2.2.2 (by decide)⟩

/-- C16. For `batchSize ≥ 1`, the chunks of group `i` of `batchTexts`, concatenated in order,
are `texts[i]` as a sequence of characters: the character sequences of the chunks, put one
after the other, are the character sequence of `texts[i]`, and so is the character sequence
of the concatenated string. As a string the concatenation is `string([]rune(texts[i]))`,
which is `texts[i]` itself when `texts[i]` is valid UTF-8. -/
theorem batchTexts_chunks_concat (texts : List GoString) (batchSize : Int)
    (hC : 1 ≤ batchSize) :
    ∃ groups, batchTexts texts batchSize = Outcome.returned groups ∧
      ∀ (i : Nat) (hi : i < texts.length), ∃ group,
        groups[i]? = some group ∧
        (group.map stringToRunes).flatten = stringToRunes texts[i] ∧
        stringToRunes group.flatten = stringToRunes texts[i] ∧
        group.flatten = runesToString (stringToRunes texts[i]) ∧
        (validUTF8 texts[i] → group.flatten = texts[i]) := by
  obtain ⟨C, rfl⟩ : ∃ C : Nat, batchSize = (C : Int) :=
    ⟨batchSize.toNat, (Int.toNat_of_nonneg (by omega)).symm⟩
  have hC1 : 1 ≤ C := by omega
  obtain ⟨groups, hg, _, hidx⟩ := batchTexts_getElem texts C hC1
  refine ⟨groups, hg, ?_⟩
  intro i hi
  have hbytes : ((List.range (chunkCount (runeCount texts[i]) C)).map
      (chunkAt (stringToRunes texts[i]) C)).flatten =
      runesToString (stringToRunes texts[i]) := by
    have h := flatten_slices_all (stringToRunes texts[i]) C hC1
    have h2 := congrArg runesToString h
    rw [runesToString_flatten, List.map_map] at h2
    exact h2
  have hrunes : (((List.range (chunkCount (runeCount texts[i]) C)).map
      (chunkAt (stringToRunes texts[i]) C)).map stringToRunes).flatten =
      stringToRunes texts[i] := by
    have h := flatten_slices_all (stringToRunes texts[i]) C hC1
    rw [List.map_map]
    have hfun : (stringToRunes ∘ chunkAt (stringToRunes texts[i]) C) =
        (fun k => ((stringToRunes texts[i]).drop (k * C)).take C) := by
      funext k
      exact stringToRunes_chunkAt texts[i] C k
    rw [hfun]
    exact h
  refine ⟨_, hidx i hi, hrunes, ?_, hbytes, fun hv => ?_⟩
  · rw [hbytes, stringToRunes_runesToString_self]
  · rw [hbytes, runesToString_stringToRunes _ hv]

/-- Witness for C16: the text `"héllo"` with chunk size 2 is cut into `"hé"`, `"ll"`, `"o"`,
whose concatenation is the text. -/
theorem batchTexts_chunks_concat_witness :
    (1 : Int) ≤ 2 ∧
    batchTexts [[0x68, 0xC3, 0xA9, 0x6C, 0x6C, 0x6F]] 2 =
      Outcome.returned [[[0x68, 0xC3, 0xA9], [0x6C, 0x6C], [0x6F]]] ∧
    ∃ groups, batchTexts [[0x68, 0xC3, 0xA9, 0x6C, 0x6C, 0x6F]] 2 = Outcome.returned groups ∧
      ∃ group, groups[0]? = some group ∧
        stringToRunes group.flatten = stringToRunes [0x68, 0xC3, 0xA9, 0x6C, 0x6C, 0x6F] := by
  obtain ⟨groups, hg, h⟩ :=
    batchTexts_chunks_concat [[0x68, 0xC3, 0xA9, 0x6C, 0x6C, 0x6F]] 2 (by decide)
  obtain ⟨group, h1, _, h3, _⟩ := h 0 (by decide)
  exact ⟨by decide, by decide, groups, hg, group, h1, h3⟩

/-- C17. For `batchSize ≥ 1`, `batchTexts` terminates and takes no slice out of range: it
returns its groups, and for every text the inner loop is left after at most
`len(runeText) + 1` loop tests with the chunks `batchText` returns. Whenever the loop stands
at index `j` with `j < len(runeText)`, the slice it takes is within bounds: `runeText[j:]`
with `0 ≤ j ≤ len(runeText)` on the `break` branch, `runeText[j:j+batchSize]` with
`0 ≤ j ≤ j+batchSize ≤ len(runeText)` otherwise; the out-of-range state is never reached. -/
theorem batchTexts_terminates_in_bounds (texts : List GoString) (batchSize : Int)
    (hC : 1 ≤ batchSize) :
    (∃ groups, batchTexts texts batchSize = Outcome.returned groups) ∧
    ∀ text ∈ texts,
      (∃ n chunks, n ≤ (stringToRunes text).length + 1 ∧
        chunkSteps (stringToRunes text) batchSize n (LoopState.looping 0 []) =
          LoopState.exited chunks ∧
        batchText text batchSize = Outcome.returned chunks) ∧
      (∀ n, chunkSteps (stringToRunes text) batchSize n (LoopState.looping 0 []) ≠
        LoopState.outOfRange) ∧
      ∀ (n : Nat) (j : Int) (chunks : List GoString),
        chunkSteps (stringToRunes text) batchSize n (LoopState.looping 0 []) =
          LoopState.looping j chunks →
        j < (stringToRunes text).length →
        (j + batchSize ≥ (stringToRunes text).length →
          0 ≤ j ∧ j ≤ (stringToRunes text).length ∧
          sliceFrom (stringToRunes text) j ≠ none) ∧
        (¬ (j + batchSize ≥ (stringToRunes text).length) →
          0 ≤ j ∧ j ≤ j + batchSize ∧ j + batchSize ≤ (stringToRunes text).length ∧
          slice (stringToRunes text) j (j + batchSize) ≠ none) := by
  obtain ⟨C, rfl⟩ : ∃ C : Nat, batchSize = (C : Int) :=
    ⟨batchSize.toNat, (Int.toNat_of_nonneg (by omega)).symm⟩
  have hC1 : 1 ≤ C := by omega
  refine ⟨⟨_, batchTexts_eq texts C hC1⟩, ?_⟩
  intro text _
  refine ⟨?_, fun n => (chunkSteps_in_range _ _ hC n).1, ?_⟩
  · have h := batchText_eq text C hC1
    have h' := h
    unfold batchText at h'
    rw [chunkLoop_eq_chunkSteps] at h'
    exact ⟨_, _, le_refl _, outcome_eq_returned _ _ h', h⟩
  · intro n j chunks hst hlt
    have hj : 0 ≤ j := (chunkSteps_in_range _ _ hC n).2 j chunks hst
    refine ⟨fun _ => ⟨hj, by omega, ?_⟩, fun hge => ⟨hj, by omega, by omega, ?_⟩⟩
    · unfold sliceFrom
      rw [if_pos ⟨hj, by omega⟩]
      simp
    · unfold slice
      rw [if_pos ⟨hj, by omega, by omega⟩]
      simp

/-- Witness for C17: the texts `"abc"` and `""` with chunk size 2. -/
theorem batchTexts_terminates_in_bounds_witness :
    (1 : Int) ≤ 2 ∧
    batchTexts [[97, 98, 99], []] 2 = Outcome.returned [[[97, 98], [99]], []] ∧
    chunkSteps (stringToRunes [97, 98, 99]) 2 2 (LoopState.looping 0 []) =
      LoopState.exited [[97, 98], [99]] ∧
    ∀ n, chunkSteps (stringToRunes [97, 98, 99]) 2 n (LoopState.looping 0 []) ≠
      LoopState.outOfRange :=
  ⟨by decide, by decide, by decide,
    ((batchTexts_terminates_in_bounds [[97, 98, 99], []] 2 (by decide)).2 [97, 98, 99]
      (by decide)).2.1⟩

/-- C18. With `batchSize = 0` (the `BatchSize` of the zero-valued `OpenAI{}`) and a text of at
least one character, the inner loop of `batchTexts` never ends: the loop test holds and the
`break` condition fails at `j = 0`, and after any number `n` of iterations the index is
still 0 and `n` empty chunks have been appended. So the loop is still running whatever the
number of loop tests allowed, and so are `batchTexts` and `EmbedDocuments` of the
zero-valued embedder on a list that starts with such a text. -/
theorem batchTexts_zero_batchSize_diverges {σ ε V : Type} (text : GoString)
    (rest : List GoString) (combineVectors : List V → List Int → Except ε V) (s : σ)
    (hne : 1 ≤ runeCount text) :
    ((0 : Int) < (stringToRunes text).length ∧
      ¬ ((0 : Int) + 0 ≥ (stringToRunes text).length)) ∧
    (∀ n, chunkSteps (stringToRunes text) 0 n (LoopState.looping 0 []) =
      LoopState.looping 0 (List.replicate n [])) ∧
    (∀ n, chunkSteps (stringToRunes text) 0 (n + 1) (LoopState.looping 0 []) =
      LoopState.looping 0 (List.replicate n [] ++ [[]])) ∧
    (∀ fuel, chunkLoop (stringToRunes text) 0 fuel 0 [] = Outcome.running) ∧
    batchTexts (text :: rest) 0 = Outcome.running ∧
    (EmbedDocuments (⟨none, false, 0⟩ : OpenAI σ ε V) combineVectors s (text :: rest)).result =
      Outcome.running ∧
    (EmbedDocuments (⟨none, false, 0⟩ : OpenAI σ ε V) combineVectors s (text :: rest)).calls =
      [] := by
  have hlen : 1 ≤ (stringToRunes text).length := hne
  have hsteps := chunkSteps_zero_batchSize (stringToRunes text) hlen
  have hloop : ∀ fuel, chunkLoop (stringToRunes text) 0 fuel 0 [] = Outcome.running := by
    intro fuel
    rw [chunkLoop_eq_chunkSteps, hsteps]
    rfl
  have hbatch : batchTexts (text :: rest) 0 = Outcome.running := by
    unfold batchTexts batchText
    rw [hloop]
  refine ⟨⟨by omega, by omega⟩, hsteps, ?_, hloop, hbatch, ?_, ?_⟩
  · intro n
    rw [hsteps, List.replicate_succ']
  · unfold EmbedDocuments
    simp only [maybeRemoveNewLines, Bool.not_false, if_true]
    rw [hbatch]
  · unfold EmbedDocuments
    simp only [maybeRemoveNewLines, Bool.not_false, if_true]
    rw [hbatch]

/-- Witness for C18: the text `"a"`. -/
theorem batchTexts_zero_batchSize_diverges_witness :
    1 ≤ runeCount [0x61] ∧
    batchTexts [[0x61]] 0 = Outcome.running ∧
    chunkSteps (stringToRunes [0x61]) 0 3 (LoopState.looping 0 []) =
      LoopState.looping 0 [[], [], []] ∧
    ∀ fuel, chunkLoop (stringToRunes [0x61]) 0 fuel 0 [] = Outcome.running :=
  ⟨by decide, by decide, by decide,
    (batchTexts_zero_batchSize_diverges (σ := Nat) (ε := Nat) (V := List Nat) [0x61] []
      exampleCombine 0 (by decide)).2.2.2.1⟩

/-- C19. For `batchSize ≥ 1` no chunk produced by `batchTexts` is the empty string, so an empty
text yields a group with zero chunks. Accordingly, for an empty document at position `i`,
the `i`-th provider request of `EmbedDocuments` (when the call gets that far) has an empty list
of texts and the `i`-th combination an empty list of weights; a call that succeeds has
made both. -/
theorem batchTexts_no_empty_chunk {σ ε V : Type} (texts : List GoString) (batchSize : Int)
    (e : OpenAI σ ε V) (combineVectors : List V → List Int → Except ε V) (s : σ)
    (documents : List GoString) (hC : 1 ≤ batchSize) (hB : 1 ≤ e.BatchSize) :
    (∃ groups, batchTexts texts batchSize = Outcome.returned groups ∧
      (∀ g ∈ groups, ∀ chunk ∈ g, chunk ≠ []) ∧
      ∀ i : Nat, texts[i]? = some [] → groups[i]? = some []) ∧
    ∀ i : Nat, documents[i]? = some [] →
      (∀ call, (EmbedDocuments e combineVectors s documents).calls[i]? = some call →
        call.request = []) ∧
      (∀ p, (EmbedDocuments e combineVectors s documents).combines[i]? = some p →
        p.2 = []) ∧
      (∀ vs, (EmbedDocuments e combineVectors s documents).result =
          Outcome.returned (Except.ok vs) →
        ∃ answer,
          (EmbedDocuments e combineVectors s documents).calls[i]? =
            some ⟨[], Except.ok answer⟩ ∧
          (EmbedDocuments e combineVectors s documents).combines[i]? = some (answer, [])) := by
  have part1 : ∀ (ts : List GoString) (B : Int), 1 ≤ B →
      ∃ groups, batchTexts ts B = Outcome.returned groups ∧
        (∀ g ∈ groups, ∀ chunk ∈ g, chunk ≠ []) ∧
        ∀ i : Nat, ts[i]? = some [] → groups[i]? = some [] := by
    intro ts B hB1
    obtain ⟨C, rfl⟩ : ∃ C : Nat, B = (C : Int) :=
      ⟨B.toNat, (Int.toNat_of_nonneg (by omega)).symm⟩
    have hC1 : 1 ≤ C := by omega
    obtain ⟨groups, hg, _, hidx⟩ := batchTexts_getElem ts C hC1
    refine ⟨groups, hg, ?_, ?_⟩
    · intro g hg' chunk hchunk
      have hgs := batchTexts_eq ts C hC1
      rw [hg] at hgs
      simp only [Outcome.returned.injEq] at hgs
      rw [hgs] at hg'
      simp only [List.mem_map] at hg'
      obtain ⟨text, _, rfl⟩ := hg'
      simp only [List.mem_map, List.mem_range] at hchunk
      obtain ⟨k, hk, rfl⟩ := hchunk
      exact chunkAt_ne_nil text C k hC1 hk
    · intro i hi
      obtain ⟨hlt, hget⟩ := List.getElem?_eq_some.1 hi
      rw [hidx i hlt, hget]
      have : runeCount ([] : GoString) = 0 := rfl
      rw [this, chunkCount_zero C hC1]
      rfl
  refine ⟨part1 texts batchSize hC, ?_⟩
  intro i hdoc
  obtain ⟨groups, hb, _, hempty⟩ :=
    part1 (maybeRemoveNewLines documents e.StripNewLines) e.BatchSize hB
  have hgi : groups[i]? = some [] := by
    apply hempty
    rw [maybeRemoveNewLines_eq_map, List.getElem?_map, hdoc]
    simp only [Option.map_some', Option.some.injEq]
    exact normalized_empty _
  rcases EmbedDocuments_cases e combineVectors s documents with
    ⟨groups', c, hb', _, hE⟩ | ⟨h1, h2, h3⟩
  · rw [hb] at hb'
    simp only [Outcome.returned.injEq] at hb'
    subst hb'
    rw [hE]
    obtain ⟨q1, q2⟩ := embedLoop_prefix c combineVectors groups s
    have hreq : ∀ call, (embedLoop (some c) combineVectors groups [] s [] []).calls[i]? =
        some call → call.request = [] := by
      intro call hcall
      have h3 : ((embedLoop (some c) combineVectors groups [] s [] []).calls.map
          Call.request)[i]? = some call.request := by
        rw [List.getElem?_map, hcall]; rfl
      have h4 := prefix_getElem? q1 i _ h3
      rw [hgi] at h4
      simp only [Option.some.injEq] at h4
      exact h4.symm
    refine ⟨hreq, ?_, ?_⟩
    · intro p hp
      have h1 : ((embedLoop (some c) combineVectors groups [] s [] []).combines.map
          (fun p => ((Except.ok p.1 : Except ε (List V)), p.2)))[i]? =
          some (Except.ok p.1, p.2) := by
        rw [List.getElem?_map, hp]; rfl
      have h2 := prefix_getElem? q2 i _ h1
      rw [List.getElem?_map] at h2
      rcases hcall : (embedLoop (some c) combineVectors groups [] s [] []).calls[i]? with
        _ | call
      · rw [hcall] at h2; simp at h2
      · rw [hcall] at h2
        simp only [Option.map_some', Option.some.injEq, Prod.mk.injEq] at h2
        rw [← h2.2, hreq call hcall]
        rfl
    · intro vs hok
      obtain ⟨k1, k2, k3, k4⟩ := embedLoop_ok c combineVectors groups s vs hok
      obtain ⟨hlt, hget⟩ := List.getElem?_eq_some.1 hgi
      obtain ⟨answer, _, l1, l2, _, _⟩ :=
        lockstep_index combineVectors groups _ _ vs k1 k2 k3 k4 i hlt
      rw [hget] at l1 l2
      exact ⟨answer, l1, l2⟩
  · refine ⟨?_, ?_, ?_⟩
    · intro call hcall; rw [h1] at hcall; simp at hcall
    · intro p hp; rw [h2] at hp; simp at hp
    · intro vs hok
      obtain ⟨_, hb'⟩ := h3 vs hok
      rw [hb] at hb'
      simp only [Outcome.returned.injEq] at hb'
      rw [hb'] at hgi
      simp at hgi

/-- Witness for C19: the documents `"ab"` and `""` with chunk size 2: the second request has
no text, and the second combination no weight. -/
theorem batchTexts_no_empty_chunk_witness :
    (1 : Int) ≤ (exampleEmbedder false).BatchSize ∧
    batchTexts [[97, 98], []] 2 = Outcome.returned [[[97, 98]], []] ∧
    (EmbedDocuments (exampleEmbedder false) exampleCombine 0 [[97, 98], []]).calls[1]? =
      some ⟨[], Except.ok []⟩ ∧
    ∀ p, (EmbedDocuments (exampleEmbedder false) exampleCombine 0 [[97, 98], []]).combines[1]? =
      some p → p.2 = [] :=
  ⟨by decide, by decide, rfl,
    ((batchTexts_no_empty_chunk [[97, 98], []] 2 (exampleEmbedder false) exampleCombine 0
      [[97, 98], []] (by decide) (by decide)).2 1 rfl).2.1⟩

end Embeddings
